import Mathlib

/-!
Shallow embedding of the `kyber` Python package (modules `params.py`, `poly.py`,
`ntt.py`, `pke.py`, `kem.py`, `symmetric.py`) and proofs about it.

Conventions of the embedding:
* Python `bytes` values are `List Nat` (each element a byte value).
* Python `int` is `Int`; `%` is `Int.emod`, which agrees with Python `%` for a
  positive modulus, and `//` (floor division) is `Int.fdiv`.
* `os.urandom` is modelled as an explicit byte stream `rand : Nat → Nat`;
  each call site consumes consecutive positions of the stream.
* `hashlib.shake_128(seed).digest(l)` is modelled as an explicit function
  parameter `shake : List Nat → Nat → List Nat`; where a claim needs the
  library's guarantee that the digest has the requested length, that guarantee
  appears as an explicit hypothesis.
* Python exceptions that the source can raise (`IndexError` from sequence
  indexing, `ValueError` raised explicitly) are modelled with `Except PyErr`.
-/

set_option maxRecDepth 40000

namespace Kyber

/-- The two exception kinds the `kyber` sources can raise. -/
inductive PyErr where
  | indexError : PyErr
  | valueError : PyErr
deriving DecidableEq

/-- Python slice `l[a:b]` for byte strings, with `0 ≤ a ≤ b` (the only form the
sources use).  Out-of-range slices are forgiving, exactly as in Python. -/
def pySlice (l : List Nat) (a b : Nat) : List Nat := (l.drop a).take (b - a)

/-- Python `int.from_bytes(bs, 'little')` (unsigned). -/
def leNat : List Nat → Nat
  | [] => 0
  | b :: rest => b + 256 * leNat rest

/-- Python `int.from_bytes(bs, 'little', signed=True)`. -/
def leIntSigned (bs : List Nat) : Int :=
  if 2 ^ (8 * bs.length - 1) ≤ leNat bs then
    (leNat bs : Int) - 2 ^ (8 * bs.length)
  else (leNat bs : Int)

/-- Python `v.to_bytes(len, 'little')` for `0 ≤ v < 256^len`. -/
def natToBytesLE (len v : Nat) : List Nat :=
  (List.range len).map fun i => v / 256 ^ i % 256

/-- Python `range(0, stop, step)` for `step > 0`. -/
def pyRangeStep (stop step : Nat) : List Nat :=
  (List.range ((stop + step - 1) / step)).map fun i => i * step

/-- `poly.py`: `class Polynomial`, with fields `n`, `q` and the coefficient
list.  The constructor does not force `coeffs` to have length `n`. -/
structure Polynomial where
  n : Nat
  q : Nat
  coeffs : List Int
deriving DecidableEq

/-- The `Polynomial.__init__` body: `self.coeffs = coeffs or [0] * n`, i.e. an
empty (falsy) coefficient list is replaced by `n` zeros. -/
def pyPolyInit (coeffs : List Int) (n q : Nat) : Polynomial :=
  ⟨n, q, if coeffs = [] then List.replicate n 0 else coeffs⟩

/-- `Polynomial(coeffs)` with the default arguments `n=256`, `q=3329`. -/
def mkPoly (coeffs : List Int) : Polynomial := pyPolyInit coeffs 256 3329

/-- `Polynomial.__add__`: element-wise `(a + b) % q` over `zip` (which, as in
Python, truncates to the shorter list), after checking `n` and `q` agree. -/
def polyAdd (p1 p2 : Polynomial) : Except PyErr Polynomial :=
  if p1.n ≠ p2.n ∨ p1.q ≠ p2.q then .error .valueError
  else .ok (pyPolyInit ((p1.coeffs.zip p2.coeffs).map
    fun ab => (ab.1 + ab.2) % (p1.q : Int)) p1.n p1.q)

/-- `Polynomial.__sub__`. -/
def polySub (p1 p2 : Polynomial) : Except PyErr Polynomial :=
  if p1.n ≠ p2.n ∨ p1.q ≠ p2.q then .error .valueError
  else .ok (pyPolyInit ((p1.coeffs.zip p2.coeffs).map
    fun ab => (ab.1 - ab.2) % (p1.q : Int)) p1.n p1.q)

/-- The schoolbook double loop of `Polynomial.__mul__`:
`res[i+j] = (res[i+j] + self.coeffs[i] * other.coeffs[j]) % q` over a scratch
list of length `2n`.  All written indices `i+j` are below `2n`, so `List.set`
and `getD` coincide with Python list indexing once the operand lengths have
been checked (see `polyMul`). -/
def schoolbook (a b : List Int) (n : Nat) (q : Int) : List Int :=
  (List.range n).foldl
    (fun res i =>
      (List.range n).foldl
        (fun res2 j =>
          res2.set (i + j) ((res2.getD (i + j) 0 + a.getD i 0 * b.getD j 0) % q))
        res)
    (List.replicate (2 * n) 0)

/-- The reduction loop of `Polynomial.__mul__`:
`for i in range(n, 2n): res[i-n] = (res[i-n] - res[i]) % q`. -/
def reduceNegacyclic (res : List Int) (n : Nat) (q : Int) : List Int :=
  (List.range n).foldl
    (fun r i => r.set i ((r.getD i 0 - r.getD (n + i) 0) % q)) res

/-- `Polynomial.__mul__`.  Python raises `IndexError` when a coefficient list
is shorter than `n` (the loops read `coeffs[i]` for `i < n`); we check that up
front, which lets the loops use total indexing. -/
def polyMul (p1 p2 : Polynomial) : Except PyErr Polynomial :=
  if p1.n ≠ p2.n ∨ p1.q ≠ p2.q then .error .valueError
  else if p1.coeffs.length < p1.n ∨ p2.coeffs.length < p1.n then .error .indexError
  else .ok (pyPolyInit
    ((reduceNegacyclic (schoolbook p1.coeffs p2.coeffs p1.n (p1.q : Int))
        p1.n (p1.q : Int)).take p1.n) p1.n p1.q)

/-- `params.py`: the `KyberParams` named tuple. -/
structure KyberParams where
  k : Nat
  n : Nat
  q : Nat
  eta1 : Nat
  eta2 : Nat
  du : Nat
  dv : Nat
deriving DecidableEq

def KYBER512 : KyberParams := ⟨2, 256, 3329, 3, 2, 10, 4⟩

def KYBER768 : KyberParams := ⟨3, 256, 3329, 2, 2, 10, 4⟩

def KYBER1024 : KyberParams := ⟨4, 256, 3329, 2, 2, 11, 5⟩

/-! ## `ntt.py` -/

/-- The 128-entry `ZETAS` table of `ntt.py`, verbatim. -/
def ZETAS : List Nat := [
  2285, 2571, 2970, 1812, 1493, 1422, 287, 202, 3158, 622, 1577, 182, 962,
  2127, 1855, 1468, 573, 2004, 264, 383, 2500, 1458, 1727, 3199, 2648, 1017,
  732, 608, 1787, 411, 3124, 1758, 1223, 652, 2777, 1015, 2036, 1491, 3047,
  1785, 516, 3321, 3009, 2663, 1711, 2167, 126, 1469, 2476, 3239, 3058, 830,
  107, 1908, 3082, 2378, 2931, 961, 1821, 2604, 448, 2264, 677, 2054, 2226,
  430, 555, 843, 2078, 871, 1550, 105, 422, 587, 177, 3094, 3038, 2869, 1574,
  1653, 3083, 778, 1159, 3182, 2552, 1483, 2727, 1119, 1739, 644, 2457, 349,
  418, 329, 3173, 3254, 817, 1097, 603, 610, 1322, 2044, 1864, 384, 2114, 3193,
  1218, 1994, 2455, 220, 2142, 1670, 2144, 1799, 2051, 794, 1819, 2475, 2459,
  478, 3221, 3021, 996, 991, 958, 1869, 1522, 1628]

/-- The forward butterflies of one `start` block in `ntt`:
`temp = (zeta * res[j+distance]) % q; res[j+distance] = (res[j] - temp) % q;
res[j] = (res[j] + temp) % q` for `j` in `[start, start+distance)`.  After
`ntt`'s length check the list has 256 entries and every index is in range, so
total indexing (`getD`/`set`) coincides with Python list indexing. -/
def nttButterflies (q : Int) (zeta distance start : Nat) (res : List Int) : List Int :=
  (List.range distance).foldl
    (fun r t =>
      let j := start + t
      let temp := ((zeta : Int) * r.getD (j + distance) 0) % q
      let a := r.getD j 0
      (r.set (j + distance) ((a - temp) % q)).set j ((a + temp) % q))
    res

/-- One `level` of `ntt`: `for start in range(0, 256, distance << 1)`, reading
`ZETAS[k]` (which raises `IndexError` when `k` runs past the table) and
incrementing `k` once per block. -/
def nttLevel (q : Int) (distance : Nat) (st : List Int × Nat) :
    Except PyErr (List Int × Nat) :=
  (pyRangeStep 256 (2 * distance)).foldlM
    (fun st2 start =>
      match ZETAS.get? st2.2 with
      | none => .error .indexError
      | some zeta => .ok (nttButterflies q zeta distance start st2.1, st2.2 + 1))
    st

/-- `ntt.ntt`: raises `ValueError` unless the polynomial has exactly 256
coefficients, then runs 7 butterfly levels with `distance = 1 << level` and a
single running twiddle index `k` starting at 0.  The result is built with
`Polynomial(res, q=poly.q)` (so `n` takes its default 256). -/
def ntt (p : Polynomial) : Except PyErr Polynomial :=
  if p.coeffs.length ≠ 256 then .error .valueError
  else do
    let final ← (List.range 7).foldlM
      (fun st level => nttLevel (p.q : Int) (2 ^ level) st) (p.coeffs, 0)
    pure (pyPolyInit final.1 256 p.q)

/-- Python list indexing `ZETAS[k]` where `k` may have gone negative (as it
does inside `invntt`): a negative index wraps once from the end, and indices
outside `[-128, 128)` raise `IndexError`. -/
def zetaAtPy (k : Int) : Except PyErr Nat :=
  if 0 ≤ k ∧ k < 128 then .ok (ZETAS.getD k.toNat 0)
  else if -128 ≤ k ∧ k < 0 then .ok (ZETAS.getD (k + 128).toNat 0)
  else .error .indexError

/-- Checked list read, for loops whose indices Python would bounds-check. -/
def getIntAt (l : List Int) (i : Nat) : Except PyErr Int :=
  match l.get? i with
  | some v => .ok v
  | none => .error .indexError

/-- The inverse butterflies of one block in `invntt`: `temp = res[j];
res[j] = (temp + res[j+distance]) % q;
res[j+distance] = ((temp - res[j+distance]) * zeta) % q`.  Reads are checked
because `invntt` has no length guard. -/
def invnttButterflies (q : Int) (zeta distance start : Nat) (res : List Int) :
    Except PyErr (List Int) :=
  (List.range distance).foldlM
    (fun r t => do
      let j := start + t
      let temp ← getIntAt r j
      let b ← getIntAt r (j + distance)
      pure ((r.set j ((temp + b) % q)).set (j + distance) ((temp - b) * (zeta : Int) % q)))
    res

/-- `ntt.invntt`: levels `6, 5, …, 0`, twiddle index `k` starting at 127 and
decremented once per block (it goes negative and wraps, Python-style), then a
final global scaling by `1441` and `Polynomial(res, q=poly.q)`. -/
def invntt (p : Polynomial) : Except PyErr Polynomial := do
  let final ← [6, 5, 4, 3, 2, 1, 0].foldlM
    (fun st level =>
      (pyRangeStep 256 (2 * 2 ^ level)).foldlM
        (fun st2 start => do
          let zeta ← zetaAtPy st2.2
          let r2 ← invnttButterflies (p.q : Int) zeta (2 ^ level) start st2.1
          pure (r2, st2.2 - 1))
        st)
    (p.coeffs, (127 : Int))
  pure (pyPolyInit (final.1.map fun x => x * 1441 % (p.q : Int)) 256 p.q)

/-! ## `symmetric.py`

All four wrappers call `shake_128(msg).digest(length)`; the sponge itself is
the `hashlib` library, outside this repository, so it enters the embedding as
the explicit function parameter `shake`. -/

def hash_g (shake : List Nat → Nat → List Nat) (msg : List Nat) : List Nat := shake msg 64

def hash_h (shake : List Nat → Nat → List Nat) (msg : List Nat) : List Nat := shake msg 32

def kdf (shake : List Nat → Nat → List Nat) (msg : List Nat) : List Nat := shake msg 32

def prf (shake : List Nat → Nat → List Nat) (seed : List Nat) (length : Nat) : List Nat :=
  shake seed length

/-! ## `pke.py`: helper, serialization and codec functions -/

/-- Out-of-range default for total list indexing of polynomial vectors and of
matrix `A`; every read the sources perform is in range. -/
def defaultPoly : Polynomial := pyPolyInit [] 256 3329

/-- `A[i][j]` for a matrix of polynomials. -/
def matEntry (A : List (List Polynomial)) (i j : Nat) : Polynomial :=
  (A.getD i []).getD j defaultPoly

/-- `pke.generate_matrix_A`: for each `(i, j)` it requests exactly
`params.n * 3` bytes from the stream seeded with `rho + bytes([i, j])`, parses
3 bytes at a time as an unsigned little-endian value, and appends `val % q`.
There is no 12-bit mask and no rejection step. -/
def generate_matrix_A (shake : List Nat → Nat → List Nat) (rho : List Nat)
    (params : KyberParams) : List (List Polynomial) :=
  (List.range params.k).map fun i =>
    (List.range params.k).map fun j =>
      let stream := prf shake (rho ++ [i, j]) (params.n * 3)
      pyPolyInit ((List.range params.n).map fun m =>
        ((leNat (pySlice stream (3 * m) (3 * m + 3)) : Int) % (params.q : Int)))
        256 3329

/-- `pke.sample_noise_poly`: each coefficient is
`sum(1 if os.urandom(1)[0] < 128 else -1 for _ in range(eta))`.  The urandom
stream is the explicit `rand`, read at consecutive positions starting at
`off`. -/
def sample_noise_poly (eta n : Nat) (rand : Nat → Nat) (off : Nat) : Polynomial :=
  pyPolyInit ((List.range n).map fun i =>
    (List.range eta).foldl
      (fun acc t => acc + (if rand (off + i * eta + t) < 128 then 1 else -1)) (0 : Int))
    256 3329

/-- `pke.sample_poly_from_seed`: expands `seed` to `n * eta` bytes with the
PRF and maps each `eta`-byte chunk to `sum(1 if bit < 128 else -1)`. -/
def sample_poly_from_seed (shake : List Nat → Nat → List Nat) (seed : List Nat)
    (eta n : Nat) : Polynomial :=
  let stream := prf shake seed (n * eta)
  pyPolyInit ((List.range n).map fun i =>
    (pySlice stream (i * eta) ((i + 1) * eta)).foldl
      (fun acc bit => acc + (if bit < 128 then 1 else -1)) (0 : Int))
    256 3329

/-- `pke.encode_pk`: 3 bytes per coefficient, little-endian, then `rho`.
Coefficients reaching this function are reduced into `[0, q)`. -/
def encode_pk (t : List Polynomial) (rho : List Nat) : List Nat :=
  (t.flatMap fun poly => poly.coeffs.flatMap fun coeff => natToBytesLE 3 coeff.toNat) ++ rho

/-- `pke.decode_pk`: reads `k` polynomials of `n` unsigned 3-byte coefficients
(each built with the default `Polynomial` constructor, so `n=256`, `q=3329`),
then 32 bytes of `rho`.  Slices are forgiving, as in Python. -/
def decode_pk (pk : List Nat) (params : KyberParams) : List Polynomial × List Nat :=
  ((List.range params.k).map fun i =>
    pyPolyInit ((List.range params.n).map fun m =>
      (leNat (pySlice pk (3 * (i * params.n + m)) (3 * (i * params.n + m) + 3)) : Int))
      256 3329,
   pySlice pk (3 * (params.k * params.n)) (3 * (params.k * params.n) + 32))

/-- `pke.encode_sk`: 2 bytes per coefficient, little-endian, signed
(coefficients are CBD samples in `[-eta, eta]`; `v % 65536` is the two's
complement encoding `to_bytes(2, 'little', signed=True)` produces). -/
def encode_sk (s : List Polynomial) : List Nat :=
  s.flatMap fun poly => poly.coeffs.flatMap fun c => natToBytesLE 2 ((c % 65536).toNat)

/-- `pke.decode_sk`. -/
def decode_sk (sk : List Nat) (params : KyberParams) : List Polynomial :=
  (List.range params.k).map fun i =>
    pyPolyInit ((List.range params.n).map fun m =>
      leIntSigned (pySlice sk (2 * (i * params.n + m)) (2 * (i * params.n + m) + 2)))
      256 3329

/-- The per-coefficient compression arithmetic of `pke.compress_ciphertext`:
`((coeff << d) + q // 2) // q` (Python floor division). -/
def compressedVal (q d : Nat) (c : Int) : Int := (c * 2 ^ d + (q / 2 : Nat)).fdiv q

/-- The per-coefficient decompression arithmetic of
`pke.decompress_ciphertext`: `((compressed * q) + (1 << (d - 1))) >> d`. -/
def decompressedVal (q d : Nat) (y : Nat) : Nat := (y * q + 2 ^ (d - 1)) / 2 ^ d

/-- The bytes `pke.compress_ciphertext` appends for one coefficient:
`compressed & 0xff`, then `(compressed >> 8) & 0xff` when `d > 8`.  For a
Python int, `& 0xff` is `% 256` (`Int.emod`) and `>> 8` is floor division by
256. -/
def compChunk (q d : Nat) (c : Int) : List Nat :=
  let compressed := compressedVal q d c
  (compressed % 256).toNat ::
    (if 8 < d then [((compressed.fdiv 256) % 256).toNat] else [])

/-- `pke.compress_ciphertext`: the `u` polynomials' byte chunks followed by
`v`'s. -/
def compress_ciphertext (u : List Polynomial) (v : Polynomial)
    (params : KyberParams) : List Nat :=
  (u.flatMap fun poly => poly.coeffs.flatMap fun c => compChunk params.q params.du c)
    ++ v.coeffs.flatMap fun c => compChunk params.q params.dv c

/-- Checked byte read `c[pos]` (raises `IndexError` past the end). -/
def byteAt (c : List Nat) (pos : Nat) : Except PyErr Nat :=
  match c.get? pos with
  | some b => .ok b
  | none => .error .indexError

/-- One compressed coefficient read of `pke.decompress_ciphertext`: one byte
when `d <= 8`, else `c[pos] | (c[pos + 1] << 8)`; returns the value and the
advanced cursor. -/
def readCompressed (c : List Nat) (d pos : Nat) : Except PyErr (Nat × Nat) :=
  if 8 < d then do
    let b0 ← byteAt c pos
    let b1 ← byteAt c (pos + 1)
    pure (b0 + b1 * 256, pos + 2)
  else do
    let b0 ← byteAt c pos
    pure (b0, pos + 1)

/-- The coefficient loop of `pke.decompress_ciphertext`: reads `n` compressed
values at width `d` from cursor `pos` and decompresses each. -/
def readPolyLoop (c : List Nat) (q d n pos : Nat) : Except PyErr (List Nat × Nat) :=
  match n with
  | 0 => pure ([], pos)
  | n' + 1 => do
    let (y, pos1) ← readCompressed c d pos
    let (rest, pos2) ← readPolyLoop c q d n' pos1
    pure (decompressedVal q d y :: rest, pos2)

/-- `pke.decompress_ciphertext`: `k` polynomials at width `du`, then one at
width `dv`, each built with the default `Polynomial` constructor. -/
def decompress_ciphertext (c : List Nat) (params : KyberParams) :
    Except PyErr (List Polynomial × Polynomial) := do
  let (u, pos1) ← (List.range params.k).foldlM
    (fun st _ => do
      let (coeffs, pos2) ← readPolyLoop c params.q params.du params.n st.2
      pure (st.1 ++ [pyPolyInit (coeffs.map Int.ofNat) 256 3329], pos2))
    (([] : List Polynomial), 0)
  let (vCoeffs, _) ← readPolyLoop c params.q params.dv params.n pos1
  pure (u, pyPolyInit (vCoeffs.map Int.ofNat) 256 3329)

/-- `pke.decode_message`: bit `j` of byte `i` (least significant first)
becomes coefficient `8 * i + j`; the coefficient list is truncated to `n` and
passed to the default `Polynomial` constructor.  The bits are used raw — there
is no scaling by `q / 2`. -/
def decode_message (msg : List Nat) (n : Nat) : Polynomial :=
  pyPolyInit
    ((msg.flatMap fun byte =>
      (List.range 8).map fun i => ((byte >>> i) &&& 1 : Nat) : List Nat).take n
        |>.map fun b => (b : Int))
    256 3329

/-- The local `bits` list of `pke.encode_message`:
`[1 if coeff > 0 else 0 for coeff in poly.coeffs[:n]]`. -/
def msgBits (poly : Polynomial) (n : Nat) : List Nat :=
  (poly.coeffs.take n).map fun c => if 0 < c then (1 : Nat) else 0

/-- `pke.encode_message`: bytes are assembled from `msgBits` 8 bits at a time,
least significant first (`byte |= bits[i + j] << j` guarded by
`i + j < len(bits)`). -/
def encode_message (poly : Polynomial) (n : Nat) : List Nat :=
  (pyRangeStep (msgBits poly n).length 8).map fun i =>
    (List.range 8).foldl
      (fun byte j =>
        if i + j < (msgBits poly n).length
        then byte ||| ((msgBits poly n).getD (i + j) 0 <<< j) else byte)
      0

/-- Bit `i` (little-endian within bytes) of a byte string. -/
def bitAt (msg : List Nat) (i : Nat) : Nat := (msg.getD (i / 8) 0 >>> (i % 8)) &&& 1

/-! ## `pke.py`: keygen / encrypt / decrypt

The Python loop bodies `t[i] += A[i][j] * s[j]`, `u[i] += A[j][i] * r_poly`,
`v += t[i] * r_poly` and `m_poly -= s[i] * u[i]` are named step functions so
the proofs can speak about them. -/

/-- One step of `t[i] += A[i][j] * s[j]` in `keygen`. -/
def mulRowStep (A : List (List Polynomial)) (s : List Polynomial) (i : Nat)
    (acc : Polynomial) (j : Nat) : Except PyErr Polynomial := do
  let prod ← polyMul (matEntry A i j) (s.getD j defaultPoly)
  polyAdd acc prod

/-- One step of `u[i] += A[j][i] * r_poly` in `encrypt` (the transposed
matrix access). -/
def mulColStep (A : List (List Polynomial)) (r_poly : Polynomial) (i : Nat)
    (acc : Polynomial) (j : Nat) : Except PyErr Polynomial := do
  let prod ← polyMul (matEntry A j i) r_poly
  polyAdd acc prod

/-- One step of `v += t[i] * r_poly` in `encrypt`. -/
def dotStep (t : List Polynomial) (r_poly : Polynomial)
    (acc : Polynomial) (i : Nat) : Except PyErr Polynomial := do
  let prod ← polyMul (t.getD i defaultPoly) r_poly
  polyAdd acc prod

/-- One step of `m_poly -= s[i] * u[i]` in `decrypt`. -/
def decSubStep (s u : List Polynomial) (acc : Polynomial) (i : Nat) :
    Except PyErr Polynomial := do
  let prod ← polyMul (s.getD i defaultPoly) (u.getD i defaultPoly)
  polySub acc prod

/-- `pke.keygen` with the random draws explicit: `rho` is the 32-byte seed
`os.urandom(32)` produces, and `rand` is the urandom stream feeding
`sample_noise_poly` (first the `k` secret polynomials, then the `k` error
polynomials, `eta1 * n` bytes each). -/
def keygen (shake : List Nat → Nat → List Nat) (rand : Nat → Nat) (rho : List Nat)
    (params : KyberParams) : Except PyErr (List Nat × List Nat) := do
  let A := generate_matrix_A shake rho params
  let s := (List.range params.k).map fun i =>
    sample_noise_poly params.eta1 params.n rand (i * (params.eta1 * params.n))
  let e := (List.range params.k).map fun i =>
    sample_noise_poly params.eta1 params.n rand ((params.k + i) * (params.eta1 * params.n))
  let t ← (List.range params.k).mapM fun i => do
    let ti ← (List.range params.k).foldlM (mulRowStep A s i)
      (pyPolyInit (List.replicate params.n 0) 256 3329)
    let ti2 ← polyAdd ti (e.getD i defaultPoly)
    ntt ti2
  pure (encode_pk t rho, encode_sk s)

/-- The computational body of `pke.encrypt` (steps 5-7), once the matrix, the
parsed public key and all sampled polynomials are in hand: `u = Aᵀ r + e1`
component-wise, `v = Σ t_i r + (e2 + m_poly)`, then compression. -/
def encryptCore (A : List (List Polynomial)) (t e1 : List Polynomial)
    (r_poly e2 m_poly : Polynomial) (params : KyberParams) :
    Except PyErr (List Nat) := do
  let u ← (List.range params.k).mapM fun i => do
    let ui ← (List.range params.k).foldlM (mulColStep A r_poly i)
      (pyPolyInit (List.replicate params.n 0) 256 3329)
    polyAdd ui (e1.getD i defaultPoly)
  let v1 ← (List.range params.k).foldlM (dotStep t r_poly)
    (pyPolyInit (List.replicate params.n 0) 256 3329)
  let em ← polyAdd e2 m_poly
  let v ← polyAdd v1 em
  pure (compress_ciphertext u v params)

/-- `pke.encrypt` with the hidden randomness explicit: `r` is the coins
argument, but `e1` and `e2` are drawn from the urandom stream `rand` (the
source calls `sample_noise_poly`, which reads `os.urandom`, not the coins).
The source parses `pk`, expands `A` and samples `r_poly`, `e1`, `e2` (steps
1-4) before any arithmetic; `decode_message` is pure, so hoisting it alongside
the other pure bindings preserves the source's semantics. -/
def encrypt (shake : List Nat → Nat → List Nat) (rand : Nat → Nat)
    (pk m r : List Nat) (params : KyberParams) : Except PyErr (List Nat) :=
  let tr := decode_pk pk params
  let A := generate_matrix_A shake tr.2 params
  let r_poly := sample_poly_from_seed shake r params.eta1 params.n
  let e1 := (List.range params.k).map fun i =>
    sample_noise_poly params.eta1 params.n rand (i * (params.eta1 * params.n))
  let e2 := sample_noise_poly params.eta2 params.n rand (params.k * (params.eta1 * params.n))
  let m_poly := decode_message m params.n
  encryptCore A tr.1 e1 r_poly e2 m_poly params

/-- `pke.decrypt`. -/
def decrypt (sk c : List Nat) (params : KyberParams) : Except PyErr (List Nat) := do
  let s := decode_sk sk params
  let uv ← decompress_ciphertext c params
  let m_poly ← (List.range params.k).foldlM (decSubStep s uv.1) uv.2
  pure (encode_message m_poly params.n)

/-! ## `kem.py`: the `KyberKEM` class -/

/-- `KyberKEM.keypair` with the random draws explicit (`rho` for the PKE
keygen seed, `rand` for the urandom stream of the noise samplers, `z` for the
32-byte implicit-rejection secret). -/
def keypair (shake : List Nat → Nat → List Nat) (rand : Nat → Nat)
    (rho z : List Nat) (params : KyberParams) : Except PyErr (List Nat × List Nat) := do
  let pksk ← keygen shake rand rho params
  let h := hash_h shake pksk.1
  pure (pksk.1, pksk.2 ++ pksk.1 ++ h ++ z)

/-- `KyberKEM.encapsulate` with the random draws explicit: `m` is the 32-byte
value `os.urandom(32)` produces, and `rand` is the urandom stream that
`encrypt`'s noise samplers consume. -/
def encapsulate (shake : List Nat → Nat → List Nat) (rand : Nat → Nat)
    (m pk : List Nat) (params : KyberParams) : Except PyErr (List Nat × List Nat) := do
  let h_pk := hash_h shake pk
  let K_r := hash_g shake (m ++ h_pk)
  let K := K_r.take 32
  let r := K_r.drop 32
  let c ← encrypt shake rand pk m r params
  let h_c := hash_h shake c
  pure (c, kdf shake (K ++ h_c))

/-- `KyberKEM.decapsulate` (with `rand` the urandom stream consumed by the
noise samplers of the re-encryption step).  Note `sk_len = params.k * 32`,
exactly as in the source. -/
def decapsulate (shake : List Nat → Nat → List Nat) (rand : Nat → Nat)
    (c sk : List Nat) (params : KyberParams) : Except PyErr (List Nat) := do
  let skLen := params.k * 32
  let sk_pke := pySlice sk 0 skLen
  let pk_pke := pySlice sk skLen (skLen * 2)
  let h := pySlice sk (skLen * 2) (skLen * 2 + 32)
  let z := sk.drop (skLen * 2 + 32)
  let m1 ← decrypt sk_pke c params
  let K_r1 := hash_g shake (m1 ++ h)
  let K1 := K_r1.take 32
  let r1 := K_r1.drop 32
  let c1 ← encrypt shake rand pk_pke m1 r1 params
  let h_c := hash_h shake c
  if c = c1 then pure (kdf shake (K1 ++ h_c)) else pure (kdf shake (z ++ h_c))

/-- The byte length of a well-formed ciphertext for a parameter set, as laid
out by `compress_ciphertext` (2 bytes per coefficient when the width exceeds
8 bits, else 1). -/
def ctLen (params : KyberParams) : Nat :=
  params.k * params.n * (if 8 < params.du then 2 else 1)
    + params.n * (if 8 < params.dv then 2 else 1)

/-! ## Basic lemmas about the embedding -/

section Lemmas

@[simp] theorem pyPolyInit_n (l : List Int) (n q : Nat) : (pyPolyInit l n q).n = n := rfl

@[simp] theorem pyPolyInit_q (l : List Int) (n q : Nat) : (pyPolyInit l n q).q = q := rfl

theorem pyPolyInit_coeffs_of_ne_nil {l : List Int} (n q : Nat) (h : l ≠ []) :
    (pyPolyInit l n q).coeffs = l := by
  simp [pyPolyInit, h]

@[simp] theorem exceptBind_ok {ε α β : Type} (a : α) (f : α → Except ε β) :
    (Except.ok a >>= f) = f a := rfl

@[simp] theorem exceptBind_err {ε α β : Type} (e : ε) (f : α → Except ε β) :
    ((Except.error e : Except ε α) >>= f) = Except.error e := rfl

theorem getD_map_range {α : Type} (f : Nat → α) (d : α) {k i : Nat} (h : i < k) :
    (((List.range k).map f).getD i d) = f i := by
  simp [List.getD, List.getElem?_map, List.getElem?_range h]

@[simp] theorem length_map_range {α : Type} (f : Nat → α) (k : Nat) :
    ((List.range k).map f).length = k := by simp

theorem mem_map_range {α : Type} {f : Nat → α} {k : Nat} {x : α}
    (h : x ∈ (List.range k).map f) : ∃ i, i < k ∧ x = f i := by
  rcases List.mem_map.mp h with ⟨i, hi, rfl⟩
  exact ⟨i, List.mem_range.mp hi, rfl⟩

/-- A fold whose step is a fixed point of the accumulator leaves it unchanged. -/
theorem foldl_fixed {α β : Type} (f : α → β → α) (c : α) (h : ∀ b, f c b = c) :
    ∀ L : List β, List.foldl f c L = c := by
  intro L
  induction L with
  | nil => rfl
  | cons a l ih => simp [List.foldl, h a, ih]

/-- A fold whose step preserves the length of a list accumulator preserves it
overall. -/
theorem length_foldl_set {β : Type} (f : List Int → β → List Int)
    (hf : ∀ res a, (f res a).length = res.length) :
    ∀ (L : List β) (init : List Int), (List.foldl f init L).length = init.length := by
  intro L
  induction L with
  | nil => intro init; rfl
  | cons a l ih => intro init; rw [List.foldl_cons, ih, hf]

theorem set_replicate_zero : ∀ (L i : Nat), (List.replicate L (0 : Int)).set i 0 = List.replicate L 0 := by
  intro L
  induction L with
  | zero => intro i; rfl
  | succ m ih =>
    intro i
    cases i with
    | zero => simp [List.replicate, List.set]
    | succ i' => simp [List.replicate, List.set, ih i']

@[simp] theorem getD_replicate_zero : ∀ (L i : Nat),
    (List.replicate L (0 : Int)).getD i 0 = 0 := by
  intro L
  induction L with
  | zero => intro i; rfl
  | succ m ih =>
    intro i
    cases i with
    | zero => rfl
    | succ i' =>
      show (List.replicate m (0 : Int)).getD i' 0 = 0
      exact ih i'

@[simp] theorem leNat_replicate_zero : ∀ w : Nat, leNat (List.replicate w 0) = 0 := by
  intro w
  induction w with
  | zero => rfl
  | succ m ih => simp [List.replicate, leNat, ih]

theorem pySlice_replicate (L a b : Nat) (x : Nat) :
    pySlice (List.replicate L x) a b = List.replicate (min (b - a) (L - a)) x := by
  simp [pySlice, List.drop_replicate, List.take_replicate]

end Lemmas

/-! ## The forward NTT always raises `IndexError`

`ntt` consumes one `ZETAS` entry per `start` block.  Level 0 (`distance = 1`)
alone has 128 blocks, exhausting the whole 128-entry table, so the first block
of level 1 reads `ZETAS[128]` and raises `IndexError` — for every input of the
required length 256. -/

section NttFails

theorem ZETAS_length : ZETAS.length = 128 := rfl

/-- Processing a list of `start` blocks succeeds while the twiddle index stays
below 128, and advances the index by one per block. -/
theorem nttLevel_blocks_ok (q : Int) (d : Nat) :
    ∀ (L : List Nat) (res : List Int) (k : Nat), k + L.length ≤ 128 →
      ∃ res2, (L.foldlM
        (fun st2 start =>
          match ZETAS.get? st2.2 with
          | none => Except.error PyErr.indexError
          | some zeta => Except.ok (nttButterflies q zeta d start st2.1, st2.2 + 1))
        (res, k)) = .ok (res2, k + L.length) := by
  intro L
  induction L with
  | nil => intro res k _; exact ⟨res, rfl⟩
  | cons a l ih =>
    intro res k hk
    have hlen : (a :: l).length = l.length + 1 := rfl
    have hk1 : k < 128 := by omega
    have hz : ∃ z, ZETAS.get? k = some z := by
      rw [List.get?_eq_get (show k < ZETAS.length by rw [ZETAS_length]; exact hk1)]
      exact ⟨_, rfl⟩
    obtain ⟨z, hz⟩ := hz
    obtain ⟨res2, h2⟩ := ih (nttButterflies q z d a res) (k + 1) (by omega)
    refine ⟨res2, ?_⟩
    simp only [List.foldlM, hz, exceptBind_ok]
    rw [h2, hlen]
    congr 2
    omega

/-- A block list starting at twiddle index 128 or beyond fails immediately. -/
theorem nttLevel_blocks_err (q : Int) (d : Nat) (a : Nat) (L : List Nat)
    (res : List Int) (k : Nat) (hk : 128 ≤ k) :
    ((a :: L).foldlM
      (fun st2 start =>
        match ZETAS.get? st2.2 with
        | none => Except.error PyErr.indexError
        | some zeta => Except.ok (nttButterflies q zeta d start st2.1, st2.2 + 1))
      (res, k)) = .error .indexError := by
  have hz : ZETAS.get? k = none := List.get?_eq_none.mpr (by rw [ZETAS_length]; exact hk)
  simp only [List.foldlM, hz, exceptBind_err]

/-- Level 0 of `ntt` succeeds and leaves the twiddle index at 128. -/
theorem nttLevel_zero_ok (q : Int) (res : List Int) :
    ∃ res2, nttLevel q (2 ^ 0) (res, 0) = .ok (res2, 128) := by
  have hL0 : (pyRangeStep 256 (2 * 2 ^ 0)).length = 128 := by decide
  obtain ⟨res2, h0⟩ := nttLevel_blocks_ok q (2 ^ 0) (pyRangeStep 256 (2 * 2 ^ 0)) res 0
    (by rw [hL0])
  exact ⟨res2, by rw [nttLevel]; rw [h0, hL0]⟩

/-- Level 1 of `ntt`, entered with the twiddle index at 128, raises. -/
theorem nttLevel_one_err (q : Int) (res : List Int) :
    nttLevel q (2 ^ 1) (res, 128) = .error .indexError := by
  have hstep1 : pyRangeStep 256 (2 * 2 ^ 1) = 0 :: (pyRangeStep 256 (2 * 2 ^ 1)).tail := by
    decide
  rw [nttLevel, hstep1]
  exact nttLevel_blocks_err _ _ _ _ _ _ (by omega)

/-- `ntt` raises `IndexError` on every polynomial with 256 coefficients. -/
theorem ntt_always_fails (p : Polynomial) (h : p.coeffs.length = 256) :
    ntt p = .error .indexError := by
  have h7 : List.range 7 = [0, 1, 2, 3, 4, 5, 6] := by decide
  obtain ⟨res2, h0⟩ := nttLevel_zero_ok (p.q : Int) p.coeffs
  rw [ntt, if_neg (by omega), h7]
  simp only [List.foldlM, h0, exceptBind_ok, nttLevel_one_err, exceptBind_err]

end NttFails

/-! ## Claim C3 -/

/-- C3: the claim states `invntt (ntt p) = p` for every polynomial with 256
coefficients in `[0, q)`.  In fact the round trip never returns a value:
`ntt` itself raises `IndexError` on every 256-coefficient input, because its
seven butterfly levels consume 254 twiddle indices while `ZETAS` has only 128
entries (`ZETAS[128]` is read in the first block of level 1).  The code
contradicts the spec and the repository's own `tests/test_ntt.py`. -/
theorem C3_ntt_roundtrip_raises (p : Polynomial) (h : p.coeffs.length = 256) :
    (ntt p >>= invntt) = .error .indexError := by
  rw [ntt_always_fails p h]
  rfl

/-- Witness for C3 at the test suite's own polynomial `1 + x + x²`. -/
theorem C3_witness :
    (mkPoly ([1, 1, 1] ++ List.replicate 253 0)).coeffs.length = 256 ∧
      (ntt (mkPoly ([1, 1, 1] ++ List.replicate 253 0)) >>= invntt) = .error .indexError :=
  ⟨by decide, C3_ntt_roundtrip_raises (mkPoly ([1, 1, 1] ++ List.replicate 253 0)) (by decide)⟩

/-! ## Claim C4 -/

/-- C4: for every `d ∈ {1,4,5,10,11}` and `x ∈ [0, q)`, decompressing the
compressed value (with the exact integer formulas of `compress_ciphertext` and
`decompress_ciphertext`) lands within `⌈q / 2^(d+1)⌉` of `x`, measuring the
difference modulo `q` by its centered representative (whose absolute value is
`min m (q - m)` for `m` the difference reduced into `[0, q)`). -/
theorem C4_compress_roundtrip_bound :
    ∀ d, d ∈ ([1, 4, 5, 10, 11] : List Nat) → ∀ x : Nat, x < 3329 →
      min ((decompressedVal 3329 d (compressedVal 3329 d (x : Int)).toNat + 3329 - x) % 3329)
        (3329 - (decompressedVal 3329 d (compressedVal 3329 d (x : Int)).toNat + 3329 - x) % 3329)
        ≤ (3329 + 2 ^ (d + 1) - 1) / 2 ^ (d + 1) := by
  have hall : (([1, 4, 5, 10, 11] : List Nat).all fun d => (List.range 3329).all fun x =>
      decide (min ((decompressedVal 3329 d (compressedVal 3329 d (x : Int)).toNat + 3329 - x) % 3329)
        (3329 - (decompressedVal 3329 d (compressedVal 3329 d (x : Int)).toNat + 3329 - x) % 3329)
        ≤ (3329 + 2 ^ (d + 1) - 1) / 2 ^ (d + 1))) = true := by decide
  intro d hd x hx
  have h1 := List.all_eq_true.mp hall d hd
  have h2 := List.all_eq_true.mp h1 x (List.mem_range.mpr hx)
  exact of_decide_eq_true h2

/-- Witness for C4 at `d = 10`, `x = 0`. -/
theorem C4_witness :
    (10 ∈ ([1, 4, 5, 10, 11] : List Nat)) ∧ (0 : Nat) < 3329 ∧
      min ((decompressedVal 3329 10 (compressedVal 3329 10 ((0 : Nat) : Int)).toNat + 3329 - 0) % 3329)
        (3329 - (decompressedVal 3329 10 (compressedVal 3329 10 ((0 : Nat) : Int)).toNat + 3329 - 0) % 3329)
        ≤ (3329 + 2 ^ (10 + 1) - 1) / 2 ^ (10 + 1) :=
  ⟨by decide, by decide, C4_compress_roundtrip_bound 10 (by decide) 0 (by decide)⟩

/-! ## Claim C5 -/

/-- C5: the claim states that `decode_message` produces coefficients that are
`0` or `⌊q/2⌉ = 1665`.  The code stores the raw message bits instead: on the
message `0x01` followed by 31 zero bytes, coefficient 0 is `1`, which is
neither `0` nor `1665` (the `Decompress₁` scaling the spec's Encrypt step 5
requires is missing). -/
theorem C5_decode_message_unscaled :
    (decode_message (1 :: List.replicate 31 0) 256).coeffs.get? 0 = some 1 ∧
      ¬((1 : Int) = 0 ∨ (1 : Int) = 1665) := by
  constructor
  · decide
  · decide

/-! ## Claim C6 -/

/-- Extracting bit `j` from a byte assembled least-significant-bit first from
eight bits, exactly in the shape `encode_message`'s inner fold produces
(`Fin`-quantified core, settled by evaluation). -/
theorem byteBits_extract_fin :
    ∀ c0 c1 c2 c3 c4 c5 c6 c7 : Fin 2, ∀ j : Fin 8,
      ((((((((0 ||| c0.val <<< 0) ||| c1.val <<< 1) ||| c2.val <<< 2) ||| c3.val <<< 3)
          ||| c4.val <<< 4) ||| c5.val <<< 5) ||| c6.val <<< 6) ||| c7.val <<< 7)
          >>> j.val &&& 1
        = [c0.val, c1.val, c2.val, c3.val, c4.val, c5.val, c6.val, c7.val].getD j.val 0 := by
  decide

/-- `Nat`-level form of `byteBits_extract_fin`. -/
theorem byteBits_extract (c0 : Nat) (h0 : c0 < 2) (c1 : Nat) (h1 : c1 < 2)
    (c2 : Nat) (h2 : c2 < 2) (c3 : Nat) (h3 : c3 < 2) (c4 : Nat) (h4 : c4 < 2)
    (c5 : Nat) (h5 : c5 < 2) (c6 : Nat) (h6 : c6 < 2) (c7 : Nat) (h7 : c7 < 2)
    (j : Nat) (hj : j < 8) :
    ((((((((0 ||| c0 <<< 0) ||| c1 <<< 1) ||| c2 <<< 2) ||| c3 <<< 3) ||| c4 <<< 4)
        ||| c5 <<< 5) ||| c6 <<< 6) ||| c7 <<< 7) >>> j &&& 1
      = [c0, c1, c2, c3, c4, c5, c6, c7].getD j 0 :=
  byteBits_extract_fin ⟨c0, h0⟩ ⟨c1, h1⟩ ⟨c2, h2⟩ ⟨c3, h3⟩ ⟨c4, h4⟩ ⟨c5, h5⟩
    ⟨c6, h6⟩ ⟨c7, h7⟩ ⟨j, hj⟩

/-- C6 counterexample: the claim's decoding rule maps a coefficient `c` to bit
1 iff `min (c % q) (q - c % q) ≤ q / 4`.  At the polynomial whose coefficient
0 is `1665`, the code's `encode_message` emits first byte `1` (bit 0 is 1,
because `1665 > 0`), while the claimed rule gives bit 0 (`min 1665 1664 =
1664 > 832`). -/
theorem C6_counterexample :
    (encode_message (mkPoly ((1665 : Int) :: List.replicate 255 0)) 256).get? 0 = some 1 ∧
      ¬(min (1665 % 3329) (3329 - 1665 % 3329) ≤ 3329 / 4) := by
  constructor
  · decide
  · decide

/-- C6 (amended): `encode_message` maps coefficient `i` to bit 1 iff the
coefficient is positive — there is no centered-distance threshold. -/
theorem C6_encode_bit_rule (p : Polynomial) (h : p.coeffs.length = 256)
    (i : Nat) (hi : i < 256) :
    bitAt (encode_message p 256) i = if 0 < p.coeffs.getD i 0 then 1 else 0 := by
  have hbl : (msgBits p 256).length = 256 := by
    simp [msgBits, h]
  have hdiv : i / 8 < 32 := by omega
  have hguard : ∀ j : Nat, j < 8 → i / 8 * 8 + j < 256 := by omega
  have hbits : ∀ t, t < 256 → (msgBits p 256).getD t 0
      = if 0 < p.coeffs.getD t 0 then 1 else 0 := by
    intro t ht
    have ht' : t < p.coeffs.length := by omega
    have hg : p.coeffs.getD t 0 = p.coeffs[t] := by
      simp [List.getD, List.getElem?_eq_getElem ht']
    simp [msgBits, List.getD, List.getElem?_map, List.getElem?_take_of_lt ht,
      List.getElem?_eq_getElem ht', hg]
  have hbitlt : ∀ t, (msgBits p 256).getD t 0 < 2 := by
    intro t
    rcases lt_or_le t 256 with ht | ht
    · rw [hbits t ht]; split <;> norm_num
    · rw [List.getD_eq_default]
      · norm_num
      · omega
  have hrs : pyRangeStep (msgBits p 256).length 8 = (List.range 32).map fun b => b * 8 := by
    rw [hbl]
    rfl
  have hr8 : List.range 8 = [0, 1, 2, 3, 4, 5, 6, 7] := by decide
  rw [bitAt, encode_message, hrs, List.map_map, getD_map_range _ _ hdiv, hr8]
  simp only [Function.comp, List.foldl, hbl]
  rw [if_pos (by have := hguard 0; omega), if_pos (by have := hguard 1; omega),
    if_pos (by have := hguard 2; omega), if_pos (by have := hguard 3; omega),
    if_pos (by have := hguard 4; omega), if_pos (by have := hguard 5; omega),
    if_pos (by have := hguard 6; omega), if_pos (by have := hguard 7; omega)]
  rw [byteBits_extract _ (hbitlt _) _ (hbitlt _) _ (hbitlt _) _ (hbitlt _) _ (hbitlt _)
    _ (hbitlt _) _ (hbitlt _) _ (hbitlt _) (i % 8) (by omega)]
  have hmod : i / 8 * 8 + i % 8 = i := by omega
  have hcase : i % 8 < 8 := by omega
  have hfin := hbits i hi
  simp only [List.getD, List.get?] at hfin
  interval_cases h8 : i % 8 <;>
    simp only [List.getD, List.get?] <;>
    · rw [show i / 8 * 8 + _ = i from by omega]
      simpa using hfin

/-- Witness for C6's amended rule at a concrete polynomial and index. -/
theorem C6_witness :
    (mkPoly (List.replicate 256 (5 : Int))).coeffs.length = 256 ∧ 3 < 256 ∧
      bitAt (encode_message (mkPoly (List.replicate 256 (5 : Int))) 256) 3
        = if 0 < (mkPoly (List.replicate 256 (5 : Int))).coeffs.getD 3 0 then 1 else 0 :=
  ⟨by decide, by decide, C6_encode_bit_rule (mkPoly (List.replicate 256 (5 : Int))) (by decide) 3 (by decide)⟩

/-! ## Claim C8 -/

/-- A concrete all-zero sponge, used to instantiate the `shake` parameter in
witnesses (it honours the `digest` length contract). -/
def zeroShake : List Nat → Nat → List Nat := fun _ l => List.replicate l 0

/-- The uniform sampler as the spec describes it (spec §4.E, for comparison
with `generate_matrix_A`): the stream is read 3 bytes at a time into a 12-bit
value (little-endian, masked to 12 bits); values `≥ q` are rejected; accepted
values are emitted in order. -/
def specRejectionSample : List Nat → List Nat
  | b0 :: b1 :: b2 :: rest =>
    let v := (b0 + 256 * b1 + 65536 * b2) &&& 4095
    if v < 3329 then v :: specRejectionSample rest else specRejectionSample rest
  | _ => []

/-- What `generate_matrix_A` actually stores: entry `(i, j)` has 256
coefficients, and coefficient `m` is the full (unmasked) 24-bit little-endian
value of stream bytes `3m .. 3m+2` reduced `% q` — no rejection, from a stream
requested with the fixed budget of exactly `768 = n * 3` bytes. -/
theorem genA_entry_coeff (shake : List Nat → Nat → List Nat) (rho : List Nat)
    (i j : Nat) (hi : i < 2) (hj : j < 2) :
    (matEntry (generate_matrix_A shake rho KYBER512) i j).coeffs.length = 256 ∧
      ∀ m, m < 256 → (matEntry (generate_matrix_A shake rho KYBER512) i j).coeffs.get? m
        = some ((leNat (pySlice (shake (rho ++ [i, j]) 768) (3 * m) (3 * m + 3)) : Int) % 3329) := by
  have hA : matEntry (generate_matrix_A shake rho KYBER512) i j
      = pyPolyInit ((List.range 256).map fun m =>
          ((leNat (pySlice (shake (rho ++ [i, j]) 768) (3 * m) (3 * m + 3)) : Int) % 3329))
        256 3329 := by
    rw [generate_matrix_A, matEntry]
    rw [getD_map_range _ _ (show i < KYBER512.k from hi),
      getD_map_range _ _ (show j < KYBER512.k from hj)]
    rfl
  have hne : ((List.range 256).map fun m =>
      ((leNat (pySlice (shake (rho ++ [i, j]) 768) (3 * m) (3 * m + 3)) : Int) % 3329)) ≠ [] := by
    intro hc
    have := congrArg List.length hc
    simp at this
  rw [hA, pyPolyInit_coeffs_of_ne_nil _ _ hne]
  refine ⟨by simp, fun m hm => ?_⟩
  simp [List.getElem?_map, List.getElem?_range hm]

/-- C8 counterexample: on the stream beginning `00 00 FF`, the first 24-bit
little-endian value is `16711680`; its 12-bit masked value is `0`, so under
the claim's rule (mask to 12 bits, reject values `≥ q`) the first coefficient
would be `0`.  The code instead stores `16711680 % 3329 = 100`: the value was
neither masked nor rejected. -/
theorem C8_counterexample :
    (matEntry (generate_matrix_A (fun _ l => [0, 0, 255] ++ List.replicate (l - 3) 0)
        (List.replicate 32 0) KYBER512) 0 0).coeffs.get? 0 = some 100 ∧
      (specRejectionSample ((fun (_ : List Nat) l => [0, 0, 255]
        ++ List.replicate (l - 3) 0) (List.replicate 32 0 ++ [0, 0]) 768)).get? 0 = some 0 ∧
      (100 : Int) ≠ 0 ∧ 16711680 &&& 4095 = 0 ∧ 3329 ≤ 16711680 := by
  refine ⟨?_, by decide, by decide, by decide, by decide⟩
  have h := (genA_entry_coeff (fun _ l => [0, 0, 255] ++ List.replicate (l - 3) 0)
    (List.replicate 32 0) 0 0 (by omega) (by omega)).2 0 (by omega)
  rw [h]
  decide

/-- C8 (amended): in matrix generation for `A`, the stream is requested with a
fixed a-priori budget of `n * 3 = 768` bytes per entry, read 3 bytes at a time
as full 24-bit little-endian values (no 12-bit mask), and each value is
reduced `% q` rather than rejected; the reductions fill the 256 coefficients
of one ring element. -/
theorem C8_matrix_mod_reduction (shake : List Nat → Nat → List Nat) (rho : List Nat)
    (i j : Nat) (hi : i < 2) (hj : j < 2) :
    (matEntry (generate_matrix_A shake rho KYBER512) i j).coeffs.length = 256 ∧
      ∀ m, m < 256 → (matEntry (generate_matrix_A shake rho KYBER512) i j).coeffs.get? m
        = some ((leNat (pySlice (shake (rho ++ [i, j]) 768) (3 * m) (3 * m + 3)) : Int) % 3329) :=
  genA_entry_coeff shake rho i j hi hj

/-- Witness for C8's amended statement. -/
theorem C8_witness :
    (0 : Nat) < 2 ∧ (1 : Nat) < 2 ∧
      ((matEntry (generate_matrix_A zeroShake [] KYBER512) 0 1).coeffs.length = 256 ∧
        ∀ m, m < 256 → (matEntry (generate_matrix_A zeroShake [] KYBER512) 0 1).coeffs.get? m
          = some ((leNat (pySlice (zeroShake ([] ++ [0, 1]) 768) (3 * m) (3 * m + 3)) : Int) % 3329)) :=
  ⟨by decide, by decide, C8_matrix_mod_reduction zeroShake [] 0 1 (by decide) (by decide)⟩

/-! ## Claim C10 -/

section PolyOps

theorem reduceNegacyclic_length (res : List Int) (n : Nat) (q : Int) :
    (reduceNegacyclic res n q).length = res.length := by
  rw [reduceNegacyclic]
  exact length_foldl_set _ (fun r a => by rw [List.length_set]) _ res

theorem schoolbook_length (a b : List Int) (n : Nat) (q : Int) :
    (schoolbook a b n q).length = 2 * n := by
  rw [schoolbook]
  rw [length_foldl_set]
  · simp
  · intro res i
    exact length_foldl_set _ (fun r a2 => by rw [List.length_set]) _ res

/-- Every entry of the reduction loop's output below index `n` was written by
its final pass, hence has the shape `(a - b) % q`. -/
theorem reduce_entry_shape (q : Int) (n : Nat) :
    ∀ (m : Nat), m ≤ n → ∀ (res : List Int), n ≤ res.length → ∀ idx, idx < m →
      ∃ a b, ((List.range m).foldl
        (fun r i => r.set i ((r.getD i 0 - r.getD (n + i) 0) % q)) res).getD idx 0
          = (a - b) % q := by
  intro m
  induction m with
  | zero => intro _ res _ idx h; omega
  | succ m2 ih =>
    intro hm res hlen idx hidx
    rw [List.range_succ, List.foldl_append]
    have hmidlen : ((List.range m2).foldl
        (fun r i => r.set i ((r.getD i 0 - r.getD (n + i) 0) % q)) res).length
          = res.length :=
      length_foldl_set _ (fun r a => by rw [List.length_set]) _ res
    rcases Nat.lt_succ_iff_lt_or_eq.mp hidx with hlt | heq
    · obtain ⟨a, b, hab⟩ := ih (by omega) res hlen idx hlt
      refine ⟨a, b, ?_⟩
      rw [← hab]
      simp only [List.foldl]
      rw [List.getD_eq_getElem?_getD, List.getElem?_set_ne (by omega),
        ← List.getD_eq_getElem?_getD]
    · subst heq
      refine ⟨((List.range idx).foldl
          (fun r i => r.set i ((r.getD i 0 - r.getD (n + i) 0) % q)) res).getD idx 0,
        ((List.range idx).foldl
          (fun r i => r.set i ((r.getD i 0 - r.getD (n + i) 0) % q)) res).getD (n + idx) 0, ?_⟩
      simp only [List.foldl]
      rw [List.getD_eq_getElem?_getD, List.getElem?_set_eq_of_lt _ (by omega)]
      rfl

/-- C10: for `Polynomial` operands whose coefficient lists have their declared
length `n` and whose modulus is positive, addition, subtraction and
multiplication succeed exactly when the operands' `n` and `q` agree, in which
case the result has exactly `n` coefficients, each in `[0, q)`; when `n` or
`q` differ all three operations raise `ValueError`. -/
theorem C10_poly_ops (p1 p2 : Polynomial)
    (h1 : p1.coeffs.length = p1.n) (h2 : p2.coeffs.length = p2.n) (hq : 0 < p1.q) :
    ((p1.n = p2.n ∧ p1.q = p2.q) →
      (∃ r, polyAdd p1 p2 = .ok r ∧ r.coeffs.length = p1.n ∧
        ∀ c ∈ r.coeffs, 0 ≤ c ∧ c < (p1.q : Int)) ∧
      (∃ r, polySub p1 p2 = .ok r ∧ r.coeffs.length = p1.n ∧
        ∀ c ∈ r.coeffs, 0 ≤ c ∧ c < (p1.q : Int)) ∧
      (∃ r, polyMul p1 p2 = .ok r ∧ r.coeffs.length = p1.n ∧
        ∀ c ∈ r.coeffs, 0 ≤ c ∧ c < (p1.q : Int))) ∧
    ((p1.n ≠ p2.n ∨ p1.q ≠ p2.q) →
      polyAdd p1 p2 = .error .valueError ∧ polySub p1 p2 = .error .valueError ∧
        polyMul p1 p2 = .error .valueError) := by
  have hqz : (p1.q : Int) ≠ 0 := by
    intro hc
    omega
  have hqpos : (0 : Int) < (p1.q : Int) := by exact_mod_cast hq
  constructor
  · rintro ⟨hn, hqeq⟩
    have hnomatch : ¬(p1.n ≠ p2.n ∨ p1.q ≠ p2.q) := by
      push_neg
      exact ⟨hn, hqeq⟩
    have hziplen : (p1.coeffs.zip p2.coeffs).length = p1.n := by
      rw [List.length_zip, h1, h2, hn]
      omega
    refine ⟨?_, ?_, ?_⟩
    · refine ⟨_, by rw [polyAdd, if_neg hnomatch], ?_, ?_⟩
      · rw [pyPolyInit]
        split
        · simp
        · simp [hziplen]
      · intro c hc
        rw [pyPolyInit] at hc
        simp only at hc
        split at hc
        · rcases List.eq_of_mem_replicate hc with rfl
          exact ⟨le_refl 0, hqpos⟩
        · obtain ⟨ab, _, rfl⟩ := List.mem_map.mp hc
          exact ⟨Int.emod_nonneg _ hqz, Int.emod_lt_of_pos _ hqpos⟩
    · refine ⟨_, by rw [polySub, if_neg hnomatch], ?_, ?_⟩
      · rw [pyPolyInit]
        split
        · simp
        · simp [hziplen]
      · intro c hc
        rw [pyPolyInit] at hc
        simp only at hc
        split at hc
        · rcases List.eq_of_mem_replicate hc with rfl
          exact ⟨le_refl 0, hqpos⟩
        · obtain ⟨ab, _, rfl⟩ := List.mem_map.mp hc
          exact ⟨Int.emod_nonneg _ hqz, Int.emod_lt_of_pos _ hqpos⟩
    · have hlenok : ¬(p1.coeffs.length < p1.n ∨ p2.coeffs.length < p1.n) := by
        push_neg
        constructor
        · omega
        · rw [h2, ← hn]
      have hredlen : (reduceNegacyclic (schoolbook p1.coeffs p2.coeffs p1.n (p1.q : Int))
          p1.n (p1.q : Int)).length = 2 * p1.n := by
        rw [reduceNegacyclic_length, schoolbook_length]
      have htakelen : ((reduceNegacyclic (schoolbook p1.coeffs p2.coeffs p1.n (p1.q : Int))
          p1.n (p1.q : Int)).take p1.n).length = p1.n := by
        rw [List.length_take, hredlen]
        omega
      refine ⟨_, by rw [polyMul, if_neg hnomatch, if_neg hlenok], ?_, ?_⟩
      · rw [pyPolyInit]
        split
        · simp
        · simp [htakelen]
      · intro c hc
        rw [pyPolyInit] at hc
        simp only at hc
        split at hc
        · rcases List.eq_of_mem_replicate hc with rfl
          exact ⟨le_refl 0, hqpos⟩
        · obtain ⟨idx, hidx0, hcget⟩ := List.mem_iff_getElem.mp hc
          rw [htakelen] at hidx0
          obtain ⟨a, b, hab⟩ : ∃ a b,
              (reduceNegacyclic (schoolbook p1.coeffs p2.coeffs p1.n (p1.q : Int))
                p1.n (p1.q : Int)).getD idx 0 = (a - b) % (p1.q : Int) :=
            reduce_entry_shape (p1.q : Int) p1.n p1.n (le_refl _)
              (schoolbook p1.coeffs p2.coeffs p1.n (p1.q : Int))
              (by rw [schoolbook_length]; omega) idx hidx0
          have hltR : idx < (reduceNegacyclic (schoolbook p1.coeffs p2.coeffs p1.n (p1.q : Int))
              p1.n (p1.q : Int)).length := by
            rw [hredlen]
            omega
          have hcc : c = (a - b) % (p1.q : Int) := by
            rw [← hab, List.getD_eq_getElem?_getD, List.getElem?_eq_getElem hltR]
            rw [← hcget]
            simp [List.getElem_take]
          rw [hcc]
          exact ⟨Int.emod_nonneg _ hqz, Int.emod_lt_of_pos _ hqpos⟩
  · intro hmis
    exact ⟨by rw [polyAdd, if_pos hmis], by rw [polySub, if_pos hmis],
      by rw [polyMul, if_pos hmis]⟩

end PolyOps

/-- Witness for C10 at small concrete polynomials with negative coefficients. -/
theorem C10_witness :
    (⟨2, 5, [1, -3]⟩ : Polynomial).coeffs.length = (⟨2, 5, [1, -3]⟩ : Polynomial).n ∧
    (⟨2, 5, [4, 2]⟩ : Polynomial).coeffs.length = (⟨2, 5, [4, 2]⟩ : Polynomial).n ∧
    0 < (⟨2, 5, [1, -3]⟩ : Polynomial).q ∧
    ((((⟨2, 5, [1, -3]⟩ : Polynomial).n = (⟨2, 5, [4, 2]⟩ : Polynomial).n ∧
        (⟨2, 5, [1, -3]⟩ : Polynomial).q = (⟨2, 5, [4, 2]⟩ : Polynomial).q) →
      (∃ r, polyAdd ⟨2, 5, [1, -3]⟩ ⟨2, 5, [4, 2]⟩ = .ok r ∧
        r.coeffs.length = (⟨2, 5, [1, -3]⟩ : Polynomial).n ∧
        ∀ c ∈ r.coeffs, 0 ≤ c ∧ c < ((⟨2, 5, [1, -3]⟩ : Polynomial).q : Int)) ∧
      (∃ r, polySub ⟨2, 5, [1, -3]⟩ ⟨2, 5, [4, 2]⟩ = .ok r ∧
        r.coeffs.length = (⟨2, 5, [1, -3]⟩ : Polynomial).n ∧
        ∀ c ∈ r.coeffs, 0 ≤ c ∧ c < ((⟨2, 5, [1, -3]⟩ : Polynomial).q : Int)) ∧
      (∃ r, polyMul ⟨2, 5, [1, -3]⟩ ⟨2, 5, [4, 2]⟩ = .ok r ∧
        r.coeffs.length = (⟨2, 5, [1, -3]⟩ : Polynomial).n ∧
        ∀ c ∈ r.coeffs, 0 ≤ c ∧ c < ((⟨2, 5, [1, -3]⟩ : Polynomial).q : Int))) ∧
    (((⟨2, 5, [1, -3]⟩ : Polynomial).n ≠ (⟨2, 5, [4, 2]⟩ : Polynomial).n ∨
        (⟨2, 5, [1, -3]⟩ : Polynomial).q ≠ (⟨2, 5, [4, 2]⟩ : Polynomial).q) →
      polyAdd ⟨2, 5, [1, -3]⟩ ⟨2, 5, [4, 2]⟩ = .error .valueError ∧
        polySub ⟨2, 5, [1, -3]⟩ ⟨2, 5, [4, 2]⟩ = .error .valueError ∧
        polyMul ⟨2, 5, [1, -3]⟩ ⟨2, 5, [4, 2]⟩ = .error .valueError)) :=
  ⟨by decide, by decide, by decide,
    C10_poly_ops ⟨2, 5, [1, -3]⟩ ⟨2, 5, [4, 2]⟩ (by decide) (by decide) (by decide)⟩

/-! ## Infrastructure for the PKE/KEM pipeline -/

instance {ε α : Type} [DecidableEq ε] [DecidableEq α] : DecidableEq (Except ε α) := fun x y =>
  match x, y with
  | .ok a, .ok b =>
    if h : a = b then isTrue (by rw [h]) else isFalse (fun hc => h (by injection hc))
  | .error e, .error f =>
    if h : e = f then isTrue (by rw [h]) else isFalse (fun hc => h (by injection hc))
  | .ok _, .error _ => isFalse (fun hc => Except.noConfusion hc)
  | .error _, .ok _ => isFalse (fun hc => Except.noConfusion hc)

/-- A monadic fold over `Except` succeeds when every step preserves an
invariant while succeeding. -/
theorem foldlM_ok {ε α β : Type} (f : α → β → Except ε α) (P : α → Prop)
    (hstep : ∀ a b, P a → ∃ a2, f a b = .ok a2 ∧ P a2) :
    ∀ (L : List β) (a : α), P a → ∃ r, L.foldlM f a = .ok r ∧ P r := by
  intro L
  induction L with
  | nil => intro a ha; exact ⟨a, rfl, ha⟩
  | cons x l ih =>
    intro a ha
    obtain ⟨a2, hf, ha2⟩ := hstep a x ha
    obtain ⟨r, hr, hPr⟩ := ih a2 ha2
    refine ⟨r, ?_, hPr⟩
    simp only [List.foldlM, hf, exceptBind_ok]
    exact hr

/-- A monadic map over `Except` succeeds when every element does. -/
theorem mapM_ok {ε α β : Type} (f : α → Except ε β) (Q : β → Prop) :
    ∀ L : List α, (∀ x ∈ L, ∃ y, f x = .ok y ∧ Q y) →
      ∃ ys, L.mapM f = .ok ys ∧ ys.length = L.length ∧ ∀ y ∈ ys, Q y := by
  intro L
  induction L with
  | nil => intro _; exact ⟨[], rfl, rfl, by intro y hy; cases hy⟩
  | cons x l ih =>
    intro hall
    obtain ⟨y, hy, hQy⟩ := hall x (List.mem_cons_self x l)
    obtain ⟨ys, hys, hlen, hQall⟩ := ih fun a ha => hall a (List.mem_cons_of_mem x ha)
    refine ⟨y :: ys, ?_, by simp [hlen], ?_⟩
    · rw [List.mapM_cons, hy]
      simp only [exceptBind_ok, hys]
      rfl
    · intro b hb
      rcases List.mem_cons.mp hb with rfl | hb2
      · exact hQy
      · exact hQall b hb2

/-- The shape every polynomial flowing through the KYBER512 pipeline has:
default `n` and `q` fields and exactly 256 coefficients. -/
def shape256 (p : Polynomial) : Prop := p.n = 256 ∧ p.q = 3329 ∧ p.coeffs.length = 256

theorem shape256_pyPolyInit {l : List Int} (h : l.length = 256) :
    shape256 (pyPolyInit l 256 3329) := by
  refine ⟨rfl, rfl, ?_⟩
  rw [pyPolyInit_coeffs_of_ne_nil _ _ (by intro hc; rw [hc] at h; simp at h), h]

theorem shape256_map_range (f : Nat → Int) :
    shape256 (pyPolyInit ((List.range 256).map f) 256 3329) :=
  shape256_pyPolyInit (by simp)

theorem polyAdd_shape {p1 p2 : Polynomial} (h1 : shape256 p1) (h2 : shape256 p2) :
    ∃ r, polyAdd p1 p2 = .ok r ∧ shape256 r := by
  obtain ⟨hn1, hq1, hl1⟩ := h1
  obtain ⟨hn2, hq2, hl2⟩ := h2
  refine ⟨_, by rw [polyAdd, if_neg (by push_neg; omega)], ?_⟩
  rw [hn1, hq1]
  exact shape256_pyPolyInit (by rw [List.length_map, List.length_zip, hl1, hl2]; omega)

theorem polySub_shape {p1 p2 : Polynomial} (h1 : shape256 p1) (h2 : shape256 p2) :
    ∃ r, polySub p1 p2 = .ok r ∧ shape256 r := by
  obtain ⟨hn1, hq1, hl1⟩ := h1
  obtain ⟨hn2, hq2, hl2⟩ := h2
  refine ⟨_, by rw [polySub, if_neg (by push_neg; omega)], ?_⟩
  rw [hn1, hq1]
  exact shape256_pyPolyInit (by rw [List.length_map, List.length_zip, hl1, hl2]; omega)

theorem polyMul_shape {p1 p2 : Polynomial} (h1 : shape256 p1) (h2 : shape256 p2) :
    ∃ r, polyMul p1 p2 = .ok r ∧ shape256 r := by
  obtain ⟨hn1, hq1, hl1⟩ := h1
  obtain ⟨hn2, hq2, hl2⟩ := h2
  refine ⟨_, by rw [polyMul, if_neg (by push_neg; omega), if_neg (by push_neg; omega)], ?_⟩
  rw [hn1, hq1]
  refine shape256_pyPolyInit ?_
  rw [List.length_take, reduceNegacyclic_length, schoolbook_length]
  omega

/-- Addition succeeds whenever the `n` and `q` fields agree (no length
assumption); the result keeps the left operand's fields. -/
theorem polyAdd_fields {p1 p2 : Polynomial} (hn : p1.n = p2.n) (hq : p1.q = p2.q) :
    ∃ r, polyAdd p1 p2 = .ok r ∧ r.n = p1.n ∧ r.q = p1.q := by
  refine ⟨pyPolyInit ((p1.coeffs.zip p2.coeffs).map
      fun ab => (ab.1 + ab.2) % (p1.q : Int)) p1.n p1.q, ?_, rfl, rfl⟩
  rw [polyAdd, if_neg (by push_neg; omega)]

theorem shape256_defaultPoly : shape256 defaultPoly :=
  ⟨rfl, rfl, by simp [defaultPoly, pyPolyInit]⟩

theorem shape256_getD_map_range {f : Nat → Polynomial} {k : Nat}
    (hf : ∀ i, i < k → shape256 (f i)) {d : Polynomial} (hd : shape256 d) (i : Nat) :
    shape256 (((List.range k).map f).getD i d) := by
  rcases lt_or_le i k with hi | hi
  · rw [getD_map_range _ _ hi]
    exact hf i hi
  · rw [List.getD_eq_default _ _ (by simpa using hi)]
    exact hd

theorem shape256_sample_noise (eta : Nat) (rand : Nat → Nat) (off : Nat) :
    shape256 (sample_noise_poly eta 256 rand off) :=
  shape256_map_range _

theorem shape256_sample_from_seed (shake : List Nat → Nat → List Nat)
    (seed : List Nat) (eta : Nat) :
    shape256 (sample_poly_from_seed shake seed eta 256) :=
  shape256_map_range _

theorem getD_getD_default_shape {A : List (List Polynomial)} {i : Nat}
    (hi : A.length ≤ i) (j : Nat) : shape256 ((A.getD i []).getD j defaultPoly) := by
  rw [List.getD_eq_default _ _ hi]
  cases j <;> exact shape256_defaultPoly

theorem matEntry_genA_shape (shake : List Nat → Nat → List Nat) (rho : List Nat)
    (i j : Nat) : shape256 (matEntry (generate_matrix_A shake rho KYBER512) i j) := by
  rcases lt_or_le i KYBER512.k with hi | hi
  · rw [matEntry, generate_matrix_A, getD_map_range _ _ hi]
    exact shape256_getD_map_range (fun j2 _ => shape256_map_range _) shape256_defaultPoly j
  · exact getD_getD_default_shape (by simp [generate_matrix_A]; simpa using hi) j

theorem shape256_zeroInit : shape256 (pyPolyInit (List.replicate KYBER512.n 0) 256 3329) :=
  shape256_pyPolyInit (by simp [KYBER512])

/-! ## Claim C1 -/

/-- `mulRowStep` succeeds and preserves `shape256` whenever the matrix and the
vector it reads are well-shaped at every index. -/
theorem mulRowStep_ok {A : List (List Polynomial)} {s : List Polynomial} {i : Nat}
    (hA : ∀ j, shape256 (matEntry A i j)) (hs : ∀ j, shape256 (s.getD j defaultPoly)) :
    ∀ acc j, shape256 acc → ∃ r, mulRowStep A s i acc j = .ok r ∧ shape256 r := by
  intro acc j ha
  obtain ⟨prod, hmul, hps⟩ := polyMul_shape (hA j) (hs j)
  obtain ⟨r, hadd, hrs⟩ := polyAdd_shape ha hps
  refine ⟨r, ?_, hrs⟩
  rw [mulRowStep, hmul, exceptBind_ok, hadd]

/-- `pke.keygen` raises `IndexError` for every sponge and every choice of the
random bytes: the matrix and noise polynomials are well-formed 256-coefficient
polynomials, so the pipeline reaches `ntt`, which always raises. -/
theorem keygen_always_fails (shake : List Nat → Nat → List Nat) (rand : Nat → Nat)
    (rho : List Nat) : keygen shake rand rho KYBER512 = .error .indexError := by
  have hs : ∀ j : Nat, shape256 (((List.range KYBER512.k).map fun i =>
      sample_noise_poly KYBER512.eta1 KYBER512.n rand
        (i * (KYBER512.eta1 * KYBER512.n))).getD j defaultPoly) :=
    shape256_getD_map_range (fun i _ => shape256_sample_noise _ _ _) shape256_defaultPoly
  have he : ∀ j : Nat, shape256 (((List.range KYBER512.k).map fun i =>
      sample_noise_poly KYBER512.eta1 KYBER512.n rand
        ((KYBER512.k + i) * (KYBER512.eta1 * KYBER512.n))).getD j defaultPoly) :=
    shape256_getD_map_range (fun i _ => shape256_sample_noise _ _ _) shape256_defaultPoly
  obtain ⟨ti, hfold, htis⟩ := foldlM_ok _ shape256
    (mulRowStep_ok (matEntry_genA_shape shake rho 0) hs)
    (List.range KYBER512.k) (pyPolyInit (List.replicate KYBER512.n 0) 256 3329)
    shape256_zeroInit
  obtain ⟨ti2, hadd, h2s⟩ := polyAdd_shape htis (he 0)
  have hrange2 : List.range KYBER512.k = [0, 1] := by decide
  simp only [keygen, hrange2, List.mapM_cons]
  rw [hrange2] at hfold hadd
  rw [hfold]
  simp only [exceptBind_ok, hadd, ntt_always_fails ti2 h2s.2.2, exceptBind_err]

/-- C1: the claim asserts the KEM round trip
`decapsulate (sk, c) = K` for every key pair `keypair` produces.  In fact
`KyberKEM.keypair` never produces a key pair: for every sponge and all random
bytes it raises `IndexError`, because `pke.keygen` applies `ntt` to each
row of `t` and `ntt` always overruns the 128-entry `ZETAS` table. -/
theorem C1_keypair_always_raises (shake : List Nat → Nat → List Nat) (rand : Nat → Nat)
    (rho z : List Nat) : keypair shake rand rho z KYBER512 = .error .indexError := by
  rw [keypair, keygen_always_fails]
  rfl

/-! ## Ciphertext decompression: success and failure lemmas -/

section Decompress

@[simp] theorem exceptPure {ε α : Type} (a : α) : (pure a : Except ε α) = .ok a := rfl

theorem byteAt_ok {c : List Nat} {pos : Nat} (h : pos < c.length) :
    ∃ b, byteAt c pos = .ok b := by
  rw [byteAt, List.get?_eq_get h]
  exact ⟨_, rfl⟩

theorem byteAt_err {c : List Nat} {pos : Nat} (h : c.length ≤ pos) :
    byteAt c pos = .error .indexError := by
  rw [byteAt, List.get?_eq_none.mpr h]

theorem readCompressed_ok {c : List Nat} {d pos : Nat}
    (h : pos + (if 8 < d then 2 else 1) ≤ c.length) :
    ∃ y, readCompressed c d pos = .ok (y, pos + (if 8 < d then 2 else 1)) := by
  rw [readCompressed]
  split
  · rename 8 < d => hd
    rw [if_pos hd] at h
    obtain ⟨b0, h0⟩ := byteAt_ok (show pos < c.length by omega)
    obtain ⟨b1, h1⟩ := byteAt_ok (show pos + 1 < c.length by omega)
    refine ⟨b0 + b1 * 256, ?_⟩
    rw [h0, exceptBind_ok, h1, exceptBind_ok, exceptPure]
  · rename ¬8 < d => hd
    rw [if_neg hd] at h
    obtain ⟨b0, h0⟩ := byteAt_ok (show pos < c.length by omega)
    refine ⟨b0, ?_⟩
    rw [h0, exceptBind_ok, exceptPure]

theorem readCompressed_err {c : List Nat} {d pos : Nat}
    (h : c.length < pos + (if 8 < d then 2 else 1)) :
    readCompressed c d pos = .error .indexError := by
  rw [readCompressed]
  split
  · rename 8 < d => hd
    rw [if_pos hd] at h
    rcases le_or_lt c.length pos with hp | hp
    · rw [byteAt_err hp, exceptBind_err]
    · obtain ⟨b0, h0⟩ := byteAt_ok hp
      rw [h0, exceptBind_ok, byteAt_err (show c.length ≤ pos + 1 by omega), exceptBind_err]
  · rename ¬8 < d => hd
    rw [if_neg hd] at h
    rw [byteAt_err (show c.length ≤ pos by omega), exceptBind_err]

theorem readPolyLoop_ok {c : List Nat} {q d : Nat} :
    ∀ (n pos : Nat), pos + n * (if 8 < d then 2 else 1) ≤ c.length →
      ∃ l, readPolyLoop c q d n pos = .ok (l, pos + n * (if 8 < d then 2 else 1))
        ∧ l.length = n := by
  intro n
  induction n with
  | zero =>
    intro pos _
    refine ⟨[], ?_, rfl⟩
    rw [readPolyLoop, exceptPure]
    simp
  | succ n2 ih =>
    intro pos h
    rw [Nat.succ_mul] at h
    obtain ⟨y, hy⟩ := readCompressed_ok
      (show pos + (if 8 < d then 2 else 1) ≤ c.length by omega)
    obtain ⟨l, hl, hlen⟩ := ih (pos + (if 8 < d then 2 else 1)) (by omega)
    refine ⟨decompressedVal q d y :: l, ?_, by simp [hlen]⟩
    rw [readPolyLoop, hy, exceptBind_ok]
    simp only [hl, exceptBind_ok, exceptPure]
    rw [show pos + (n2 + 1) * (if 8 < d then 2 else 1)
        = pos + (if 8 < d then 2 else 1) + n2 * (if 8 < d then 2 else 1) from by
          rw [Nat.succ_mul]; omega]

theorem readPolyLoop_err {c : List Nat} {q d : Nat} :
    ∀ (n pos : Nat), c.length < pos + n * (if 8 < d then 2 else 1) → n ≠ 0 →
      readPolyLoop c q d n pos = .error .indexError := by
  intro n
  induction n with
  | zero => intro pos _ hn; exact absurd rfl hn
  | succ n2 ih =>
    intro pos h _
    rw [Nat.succ_mul] at h
    rcases le_or_lt (pos + (if 8 < d then 2 else 1)) c.length with hok | herr
    · obtain ⟨y, hy⟩ := readCompressed_ok hok
      have hn2 : n2 ≠ 0 := by
        intro hc
        subst hc
        simp at h
        omega
      rw [readPolyLoop, hy, exceptBind_ok]
      simp only [ih (pos + (if 8 < d then 2 else 1)) (by omega) hn2, exceptBind_err]
    · rw [readPolyLoop, readCompressed_err herr, exceptBind_err]

/-- Successful decompression for any byte string of at least the correct
length: the `u` vector has `k = 2` well-shaped polynomials and `v` is
well-shaped. -/
theorem decompress_ok {c : List Nat} (h : 1280 ≤ c.length) :
    ∃ u v, decompress_ciphertext c KYBER512 = .ok (u, v) ∧ u.length = 2
      ∧ (∀ p ∈ u, shape256 p) ∧ shape256 v := by
  obtain ⟨l1, h1, hlen1⟩ := readPolyLoop_ok (c := c) (q := KYBER512.q) (d := KYBER512.du)
    KYBER512.n 0 (by simp [KYBER512]; omega)
  obtain ⟨l2, h2, hlen2⟩ := readPolyLoop_ok (c := c) (q := KYBER512.q) (d := KYBER512.du)
    KYBER512.n (0 + KYBER512.n * (if 8 < KYBER512.du then 2 else 1))
    (by simp [KYBER512]; omega)
  obtain ⟨lv, hv, hlenv⟩ := readPolyLoop_ok (c := c) (q := KYBER512.q) (d := KYBER512.dv)
    KYBER512.n (0 + KYBER512.n * (if 8 < KYBER512.du then 2 else 1)
      + KYBER512.n * (if 8 < KYBER512.du then 2 else 1))
    (by simp [KYBER512]; omega)
  have hrange2 : List.range KYBER512.k = [0, 1] := by decide
  refine ⟨[pyPolyInit (l1.map Int.ofNat) 256 3329,
    pyPolyInit (l2.map Int.ofNat) 256 3329],
    pyPolyInit (lv.map Int.ofNat) 256 3329, ?_, rfl, ?_, ?_⟩
  · rw [decompress_ciphertext, hrange2]
    simp only [List.foldlM, h1, exceptBind_ok, h2, exceptBind_ok, exceptPure]
    rw [hv]
    simp only [exceptBind_ok, exceptPure]
    rfl
  · intro p hp
    rcases List.mem_cons.mp hp with rfl | hp2
    · exact shape256_pyPolyInit (by simp [hlen1, KYBER512])
    · rcases List.mem_cons.mp hp2 with rfl | hp3
      · exact shape256_pyPolyInit (by simp [hlen2, KYBER512])
      · cases hp3
  · exact shape256_pyPolyInit (by simp [hlenv, KYBER512])

/-- Decompression of a too-short byte string raises `IndexError`. -/
theorem decompress_err {c : List Nat} (h : c.length < 1280) :
    decompress_ciphertext c KYBER512 = .error .indexError := by
  have hrange2 : List.range KYBER512.k = [0, 1] := by decide
  rw [decompress_ciphertext, hrange2]
  rcases lt_or_le c.length 512 with h1 | h1
  · have e1 : readPolyLoop c KYBER512.q KYBER512.du KYBER512.n 0 = .error .indexError :=
      readPolyLoop_err _ _ (by simp [KYBER512]; omega) (by simp [KYBER512])
    simp only [List.foldlM, e1, exceptBind_err]
  · obtain ⟨l1, hl1, _⟩ := readPolyLoop_ok (c := c) (q := KYBER512.q) (d := KYBER512.du)
      KYBER512.n 0 (by simp [KYBER512]; omega)
    rcases lt_or_le c.length 1024 with h2 | h2
    · have e2 : readPolyLoop c KYBER512.q KYBER512.du KYBER512.n
          (0 + KYBER512.n * (if 8 < KYBER512.du then 2 else 1)) = .error .indexError :=
        readPolyLoop_err _ _ (by simp [KYBER512]; omega) (by simp [KYBER512])
      simp only [List.foldlM, hl1, exceptBind_ok, exceptPure, e2, exceptBind_err]
    · obtain ⟨l2, hl2, _⟩ := readPolyLoop_ok (c := c) (q := KYBER512.q) (d := KYBER512.du)
        KYBER512.n (0 + KYBER512.n * (if 8 < KYBER512.du then 2 else 1))
        (by simp [KYBER512]; omega)
      have e3 : readPolyLoop c KYBER512.q KYBER512.dv KYBER512.n
          (0 + KYBER512.n * (if 8 < KYBER512.du then 2 else 1)
            + KYBER512.n * (if 8 < KYBER512.du then 2 else 1)) = .error .indexError :=
        readPolyLoop_err _ _ (by simp [KYBER512]; omega) (by simp [KYBER512])
      simp only [List.foldlM, hl1, exceptBind_ok, exceptPure, hl2, e3, exceptBind_err]

end Decompress

/-! ## Encrypt and decrypt succeed; claims C2 and C7 -/

section Pipeline

theorem shape256_getD_of_mem {l : List Polynomial} (hl : ∀ p ∈ l, shape256 p) (i : Nat) :
    shape256 (l.getD i defaultPoly) := by
  rcases lt_or_le i l.length with hi | hi
  · rw [List.getD_eq_getElem?_getD, List.getElem?_eq_getElem hi]
    exact hl _ (List.getElem_mem hi)
  · rw [List.getD_eq_default _ _ hi]
    exact shape256_defaultPoly

theorem mulColStep_ok {A : List (List Polynomial)} {r_poly : Polynomial} {i : Nat}
    (hA : ∀ j, shape256 (matEntry A j i)) (hr : shape256 r_poly) :
    ∀ acc j, shape256 acc → ∃ r2, mulColStep A r_poly i acc j = .ok r2 ∧ shape256 r2 := by
  intro acc j ha
  obtain ⟨prod, hmul, hps⟩ := polyMul_shape (hA j) hr
  obtain ⟨r2, hadd, hrs⟩ := polyAdd_shape ha hps
  exact ⟨r2, by rw [mulColStep, hmul, exceptBind_ok, hadd], hrs⟩

theorem dotStep_ok {t : List Polynomial} {r_poly : Polynomial}
    (ht : ∀ i, shape256 (t.getD i defaultPoly)) (hr : shape256 r_poly) :
    ∀ acc i, shape256 acc → ∃ r2, dotStep t r_poly acc i = .ok r2 ∧ shape256 r2 := by
  intro acc i ha
  obtain ⟨prod, hmul, hps⟩ := polyMul_shape (ht i) hr
  obtain ⟨r2, hadd, hrs⟩ := polyAdd_shape ha hps
  exact ⟨r2, by rw [dotStep, hmul, exceptBind_ok, hadd], hrs⟩

theorem decSubStep_ok {s u : List Polynomial}
    (hs : ∀ i, shape256 (s.getD i defaultPoly)) (hu : ∀ i, shape256 (u.getD i defaultPoly)) :
    ∀ acc i, shape256 acc → ∃ r2, decSubStep s u acc i = .ok r2 ∧ shape256 r2 := by
  intro acc i ha
  obtain ⟨prod, hmul, hps⟩ := polyMul_shape (hs i) (hu i)
  obtain ⟨r2, hsub, hrs⟩ := polySub_shape ha hps
  exact ⟨r2, by rw [decSubStep, hmul, exceptBind_ok, hsub], hrs⟩

/-- `encryptCore` succeeds for well-shaped inputs (the message polynomial only
needs matching `n` and `q` fields — its coefficient count is irrelevant,
because `Polynomial.__add__` zips). -/
theorem encryptCore_ok {A : List (List Polynomial)} {t e1 : List Polynomial}
    {r_poly e2 m_poly : Polynomial}
    (hA : ∀ i j, shape256 (matEntry A i j))
    (ht : ∀ i, shape256 (t.getD i defaultPoly))
    (he1 : ∀ i, shape256 (e1.getD i defaultPoly))
    (hr : shape256 r_poly) (he2 : shape256 e2)
    (hm : m_poly.n = 256) (hmq : m_poly.q = 3329) :
    ∃ u v, encryptCore A t e1 r_poly e2 m_poly KYBER512
      = .ok (compress_ciphertext u v KYBER512) ∧ u.length = 2 ∧ ∀ p ∈ u, shape256 p := by
  obtain ⟨u, hU, hUlen, hUs⟩ := mapM_ok (fun i => do
      let ui ← (List.range KYBER512.k).foldlM (mulColStep A r_poly i)
        (pyPolyInit (List.replicate KYBER512.n 0) 256 3329)
      polyAdd ui (e1.getD i defaultPoly)) shape256 (List.range KYBER512.k)
    (fun i _ => by
      obtain ⟨ui, hui, huis⟩ := foldlM_ok _ shape256 (mulColStep_ok (fun j => hA j i) hr)
        (List.range KYBER512.k) _ shape256_zeroInit
      obtain ⟨y, hy, hys⟩ := polyAdd_shape huis (he1 i)
      refine ⟨y, ?_, hys⟩
      have hbody : (List.foldlM (mulColStep A r_poly i)
          (pyPolyInit (List.replicate KYBER512.n 0) 256 3329) (List.range KYBER512.k)
            >>= fun ui => polyAdd ui (e1.getD i defaultPoly)) = Except.ok y := by
        rw [hui, exceptBind_ok, hy]
      exact hbody)
  obtain ⟨v1, hV1, hV1s⟩ := foldlM_ok _ shape256 (dotStep_ok ht hr)
    (List.range KYBER512.k) _ shape256_zeroInit
  obtain ⟨em, hEM, hEMn, hEMq⟩ := @polyAdd_fields e2 m_poly
    (by rw [he2.1, hm]) (by rw [he2.2.1, hmq])
  obtain ⟨v, hV, _, _⟩ := @polyAdd_fields v1 em
    (by rw [hV1s.1, hEMn, he2.1]) (by rw [hV1s.2.1, hEMq, he2.2.1])
  refine ⟨u, v, ?_, by rw [hUlen]; rfl, hUs⟩
  rw [encryptCore, hU, exceptBind_ok, hV1, exceptBind_ok, hEM, exceptBind_ok, hV,
    exceptBind_ok, exceptPure]

/-- `pke.encrypt` never fails (for KYBER512): nothing in it validates its
inputs, and all polynomial operands have matching `n`, `q` and enough
coefficients. -/
theorem encrypt_ok (shake : List Nat → Nat → List Nat) (rand : Nat → Nat)
    (pk m r : List Nat) : ∃ c2, encrypt shake rand pk m r KYBER512 = .ok c2 := by
  obtain ⟨u, v, h, _, _⟩ := @encryptCore_ok
    (generate_matrix_A shake (decode_pk pk KYBER512).2 KYBER512)
    ((decode_pk pk KYBER512).1)
    ((List.range KYBER512.k).map fun i =>
      sample_noise_poly KYBER512.eta1 KYBER512.n rand (i * (KYBER512.eta1 * KYBER512.n)))
    (sample_poly_from_seed shake r KYBER512.eta1 KYBER512.n)
    (sample_noise_poly KYBER512.eta2 KYBER512.n rand
      (KYBER512.k * (KYBER512.eta1 * KYBER512.n)))
    (decode_message m KYBER512.n)
    (matEntry_genA_shape shake (decode_pk pk KYBER512).2)
    (fun i => shape256_getD_map_range (fun _ _ => shape256_map_range _) shape256_defaultPoly i)
    (fun i => shape256_getD_map_range (fun _ _ => shape256_sample_noise _ _ _)
      shape256_defaultPoly i)
    (shape256_sample_from_seed shake r KYBER512.eta1)
    (shape256_sample_noise KYBER512.eta2 rand _) rfl rfl
  exact ⟨_, h⟩

/-- Chaining lemma: a bind is `ok` when its head is and its continuation is at
the head's value. -/
theorem bind_ok_exists {ε α β : Type} (P : β → Prop) (x : Except ε α)
    (f : α → Except ε β) (a : α) (hx : x = .ok a)
    (h : ∃ b, f a = .ok b ∧ P b) : ∃ b, (x >>= f) = .ok b ∧ P b := by
  rw [hx, exceptBind_ok]
  exact h

/-- A bind propagates its head's error. -/
theorem bind_err_eq {ε α β : Type} (x : Except ε α) (f : α → Except ε β) (e : ε)
    (hx : x = .error e) : (x >>= f) = .error e := by
  rw [hx, exceptBind_err]

theorem encode_message_length {p : Polynomial} (h : p.coeffs.length = 256) :
    (encode_message p 256).length = 32 := by
  simp [encode_message, pyRangeStep, msgBits, h]

/-- `pke.decrypt` succeeds on every secret key and every byte string of at
least the correct ciphertext length, and returns exactly 32 bytes. -/
theorem decrypt_ok (sk c : List Nat) (h : 1280 ≤ c.length) :
    ∃ msg, decrypt sk c KYBER512 = .ok msg ∧ msg.length = 32 := by
  obtain ⟨u, v, hd, hulen, hus, hvs⟩ := decompress_ok h
  have hsShape : ∀ i, shape256 ((decode_sk sk KYBER512).getD i defaultPoly) := fun i =>
    shape256_getD_map_range (fun _ _ => shape256_map_range _) shape256_defaultPoly i
  have huShape : ∀ i, shape256 (u.getD i defaultPoly) := shape256_getD_of_mem hus
  obtain ⟨mp, hmp, hmps⟩ := foldlM_ok _ shape256 (decSubStep_ok hsShape huShape)
    (List.range KYBER512.k) v hvs
  refine ⟨encode_message mp KYBER512.n, ?_, encode_message_length hmps.2.2⟩
  simp only [decrypt, hd, exceptBind_ok, hmp, exceptPure]

end Pipeline

/-! ## Claim C2 -/

/-- C2: for every secret-key byte string and every ciphertext of exactly the
correct length (1280 bytes for KYBER512), `decapsulate` terminates without
error and returns exactly 32 bytes, assuming only `hashlib`'s contract that
`shake_128(x).digest(l)` has length `l`.  This covers, a fortiori, every `sk`
that `keypair` could produce and every malformed but correct-length
ciphertext: the implicit-rejection branch also ends in a 32-byte `KDF`
output. -/
theorem C2_decapsulate_total (shake : List Nat → Nat → List Nat)
    (hshake : ∀ s l, (shake s l).length = l) (rand : Nat → Nat) (sk c : List Nat)
    (hc : c.length = ctLen KYBER512) :
    ∃ K, decapsulate shake rand c sk KYBER512 = .ok K ∧ K.length = 32 := by
  have hct : ctLen KYBER512 = 1280 := by decide
  obtain ⟨m1, hm1, hm1len⟩ := decrypt_ok (pySlice sk 0 (KYBER512.k * 32)) c (by omega)
  obtain ⟨c1, hc1⟩ := encrypt_ok shake rand
    (pySlice sk (KYBER512.k * 32) (KYBER512.k * 32 * 2)) m1
    ((hash_g shake (m1
      ++ pySlice sk (KYBER512.k * 32 * 2) (KYBER512.k * 32 * 2 + 32))).drop 32)
  refine bind_ok_exists _ _ _ m1 hm1 ?_
  refine bind_ok_exists _ _ _ c1 hc1 ?_
  split
  · exact ⟨_, rfl, hshake _ 32⟩
  · exact ⟨_, rfl, hshake _ 32⟩

/-- Witness for C2 at the all-zero sponge, all-zero randomness, empty secret
key and the all-zero 1280-byte ciphertext. -/
theorem C2_witness :
    (∀ s l, (zeroShake s l).length = l) ∧
      (List.replicate 1280 0).length = ctLen KYBER512 ∧
      ∃ K, decapsulate zeroShake (fun _ => 0) (List.replicate 1280 0) [] KYBER512
        = .ok K ∧ K.length = 32 :=
  ⟨fun s l => by simp [zeroShake], by decide,
    C2_decapsulate_total zeroShake (fun s l => by simp [zeroShake]) (fun _ => 0) []
      (List.replicate 1280 0) (by decide)⟩

/-! ## Claim C7 -/

/-- Helper shared by C7's theorem and counterexample: a too-short ciphertext
makes `decapsulate` raise `IndexError` from inside `decompress_ciphertext`. -/
theorem decap_short_err (shake : List Nat → Nat → List Nat) (rand : Nat → Nat)
    (sk c : List Nat) (h : c.length < ctLen KYBER512) :
    decapsulate shake rand c sk KYBER512 = .error .indexError := by
  have hct : ctLen KYBER512 = 1280 := by decide
  have hdec : decrypt (pySlice sk 0 (KYBER512.k * 32)) c KYBER512 = .error .indexError :=
    bind_err_eq _ _ _ (decompress_err (show c.length < 1280 by omega))
  exact bind_err_eq _ _ _ hdec

/-- C7 counterexample: the claim says a wrong-length ciphertext is "rejected
at the boundary with an InvalidLength error before any cryptographic work".
No `InvalidLength` exists anywhere in the package; decapsulating a 1279-byte
ciphertext (a valid length minus one) instead dies with an uncaught
`IndexError` raised inside `decompress_ciphertext`, after the secret key has
been parsed — and an over-length ciphertext is not rejected at all. -/
theorem C7_counterexample :
    decapsulate zeroShake (fun _ => 0) (List.replicate 1279 0) [] KYBER512
      = .error .indexError :=
  decap_short_err zeroShake (fun _ => 0) [] (List.replicate 1279 0) (by decide)

/-- C7 (amended): decapsulation of a ciphertext shorter than the correct
length raises `IndexError` (from Python list indexing inside
`decompress_ciphertext`) rather than a dedicated `InvalidLength` boundary
check. -/
theorem C7_short_ciphertext_raises (shake : List Nat → Nat → List Nat)
    (rand : Nat → Nat) (sk c : List Nat) (h : c.length < ctLen KYBER512) :
    decapsulate shake rand c sk KYBER512 = .error .indexError :=
  decap_short_err shake rand sk c h

/-- Witness for C7's amended statement at a 640-byte ciphertext. -/
theorem C7_witness :
    (List.replicate 640 0).length < ctLen KYBER512 ∧
      decapsulate zeroShake (fun _ => 0) (List.replicate 640 0) [] KYBER512
        = .error .indexError :=
  ⟨by decide, C7_short_ciphertext_raises zeroShake (fun _ => 0) []
    (List.replicate 640 0) (by decide)⟩

/-! ## Claim C9 -/

section Nondeterminism

/-- The all-zero 256-coefficient polynomial (with default fields). -/
def zeroPolyK : Polynomial := pyPolyInit (List.replicate 256 0) 256 3329

/-- Constant-coefficient polynomials produced along the zero-sponge runs. -/
def constPoly (v : Int) : Polynomial := pyPolyInit (List.replicate 256 v) 256 3329

theorem schoolbook_zero_left (b : List Int) (q : Int) :
    schoolbook (List.replicate 256 0) b 256 q = List.replicate (2 * 256) 0 := by
  rw [schoolbook]
  apply foldl_fixed
  intro i
  apply foldl_fixed
  intro j
  simp only [getD_replicate_zero, zero_mul, add_zero, Int.zero_emod, set_replicate_zero]

theorem reduceNegacyclic_zero (q : Int) :
    reduceNegacyclic (List.replicate (2 * 256) 0) 256 q = List.replicate (2 * 256) 0 := by
  rw [reduceNegacyclic]
  apply foldl_fixed
  intro i
  simp only [getD_replicate_zero, sub_zero, Int.zero_emod, set_replicate_zero]

/-- Multiplying the zero polynomial (on the left, as the Python schoolbook
loop reads `self.coeffs[i]`) by any well-formed polynomial gives zero. -/
theorem polyMul_zero_left {p : Polynomial} (hn : p.n = 256) (hq : p.q = 3329)
    (hl : 256 ≤ p.coeffs.length) : polyMul zeroPolyK p = .ok zeroPolyK := by
  have hzc : zeroPolyK.coeffs = List.replicate 256 0 := rfl
  have hzl : zeroPolyK.coeffs.length = 256 := by rw [hzc, List.length_replicate]
  have hzn : zeroPolyK.n = 256 := rfl
  rw [polyMul, if_neg (by push_neg; exact ⟨by rw [hn]; rfl, by rw [hq]; rfl⟩),
    if_neg (by push_neg; omega)]
  rw [show zeroPolyK.n = 256 from rfl, show zeroPolyK.q = 3329 from rfl, hzc,
    schoolbook_zero_left, reduceNegacyclic_zero]
  rw [List.take_replicate]
  rfl

/-- Every entry of the 2×2 zero matrix (including out-of-range defaults) is
the zero polynomial. -/
theorem matEntry_zeroMat (i j : Nat) :
    matEntry [[zeroPolyK, zeroPolyK], [zeroPolyK, zeroPolyK]] j i = zeroPolyK := by
  rcases j with _ | _ | j2 <;> rcases i with _ | _ | i2 <;> rfl

/-- Chaining lemma for equalities through a bind. -/
theorem bind_ok_eq {ε α β : Type} (x : Except ε α) (f : α → Except ε β) (a : α)
    (y : Except ε β) (hx : x = .ok a) (h : f a = y) : (x >>= f) = y := by
  rw [hx, exceptBind_ok, h]

theorem mapM_pair_eq {ε α β : Type} (f : α → Except ε β) (x y : α) (bx b2 : β)
    (hx : f x = .ok bx) (hy : f y = .ok b2) : [x, y].mapM f = .ok [bx, b2] := by
  rw [List.mapM_cons, hx, exceptBind_ok, List.mapM_cons, hy, exceptBind_ok, List.mapM_nil]
  rfl

/-- `encryptCore` over the zero matrix, zero `t` and zero message polynomial:
`u_i` is just the reduced noise `e1_i` and `v` the reduced `e2`. -/
theorem encryptCore_zeroA (rp n1 n2 a1 a2 a3 : Polynomial)
    (hrp : polyMul zeroPolyK rp = .ok zeroPolyK)
    (ha1 : polyAdd zeroPolyK n1 = .ok a1)
    (ha2 : polyAdd n2 zeroPolyK = .ok a2)
    (ha3 : polyAdd zeroPolyK a2 = .ok a3) :
    encryptCore [[zeroPolyK, zeroPolyK], [zeroPolyK, zeroPolyK]] [zeroPolyK, zeroPolyK]
      [n1, n1] rp n2 zeroPolyK KYBER512
      = .ok (compress_ciphertext [a1, a1] a3 KYBER512) := by
  have haddZZ : polyAdd zeroPolyK zeroPolyK = .ok zeroPolyK := by decide
  have hstep : ∀ i j, mulColStep [[zeroPolyK, zeroPolyK], [zeroPolyK, zeroPolyK]] rp i
      zeroPolyK j = .ok zeroPolyK := by
    intro i j
    rw [mulColStep, matEntry_zeroMat i j, hrp, exceptBind_ok, haddZZ]
  have hgetZ : ∀ i, [zeroPolyK, zeroPolyK].getD i defaultPoly = zeroPolyK := by
    intro i
    rcases i with _ | _ | i2 <;> rfl
  have hdot : ∀ i, dotStep [zeroPolyK, zeroPolyK] rp zeroPolyK i = .ok zeroPolyK := by
    intro i
    rw [dotStep, hgetZ i, hrp, exceptBind_ok, haddZZ]
  have hfold : ∀ i, List.foldlM (mulColStep [[zeroPolyK, zeroPolyK], [zeroPolyK, zeroPolyK]]
      rp i) zeroPolyK [0, 1] = .ok zeroPolyK := by
    intro i
    simp only [List.foldlM, hstep i 0, exceptBind_ok, hstep i 1, exceptPure]
  have hfoldDot : List.foldlM (dotStep [zeroPolyK, zeroPolyK] rp) zeroPolyK [0, 1]
      = .ok zeroPolyK := by
    simp only [List.foldlM, hdot 0, exceptBind_ok, hdot 1, exceptPure]
  have hel0 : (List.foldlM
        (mulColStep [[zeroPolyK, zeroPolyK], [zeroPolyK, zeroPolyK]] rp 0) zeroPolyK [0, 1]
      >>= fun ui => polyAdd ui ([n1, n1].getD 0 defaultPoly)) = .ok a1 :=
    bind_ok_eq _ _ _ _ (hfold 0)
      (by rw [show [n1, n1].getD 0 defaultPoly = n1 from rfl, ha1])
  have hel1 : (List.foldlM
        (mulColStep [[zeroPolyK, zeroPolyK], [zeroPolyK, zeroPolyK]] rp 1) zeroPolyK [0, 1]
      >>= fun ui => polyAdd ui ([n1, n1].getD 1 defaultPoly)) = .ok a1 :=
    bind_ok_eq _ _ _ _ (hfold 1)
      (by rw [show [n1, n1].getD 1 defaultPoly = n1 from rfl, ha1])
  simp only [encryptCore, show List.range KYBER512.k = [0, 1] from by decide,
    show pyPolyInit (List.replicate KYBER512.n 0) 256 3329 = zeroPolyK from rfl]
  refine bind_ok_eq _ _ [a1, a1] _ (mapM_pair_eq _ 0 1 a1 a1 hel0 hel1) ?_
  refine bind_ok_eq _ _ zeroPolyK _ hfoldDot ?_
  refine bind_ok_eq _ _ a2 _ ha2 ?_
  refine bind_ok_eq _ _ a3 _ ha3 ?_
  rfl

theorem map_range_zero_int (f : Nat → Int) (h : ∀ m, m < 256 → f m = 0) :
    (List.range 256).map f = List.replicate 256 (0 : Int) := by
  refine List.eq_replicate.2 ⟨by simp, ?_⟩
  intro b hb
  obtain ⟨m, hm, rfl⟩ := mem_map_range hb
  exact h m hm

/-- The matrix `A` expanded through the all-zero sponge is the zero matrix,
whatever the seed. -/
theorem genA_zeroShake (rho : List Nat) :
    generate_matrix_A zeroShake rho KYBER512
      = [[zeroPolyK, zeroPolyK], [zeroPolyK, zeroPolyK]] := by
  have hentry : ∀ i j : Nat, pyPolyInit ((List.range KYBER512.n).map fun m =>
      ((leNat (pySlice (prf zeroShake (rho ++ [i, j]) (KYBER512.n * 3)) (3 * m) (3 * m + 3)) : Int)
        % (KYBER512.q : Int))) 256 3329 = zeroPolyK := by
    intro i j
    have hmap : (List.range KYBER512.n).map (fun m =>
        ((leNat (pySlice (prf zeroShake (rho ++ [i, j]) (KYBER512.n * 3)) (3 * m) (3 * m + 3))
          : Int) % (KYBER512.q : Int))) = List.replicate 256 0 :=
      map_range_zero_int _ (fun m hm => by
        show ((leNat (pySlice (List.replicate (KYBER512.n * 3) 0) (3 * m) (3 * m + 3)) : Int)
          % (KYBER512.q : Int)) = 0
        rw [pySlice_replicate, leNat_replicate_zero]
        decide)
    rw [hmap]
    rfl
  rw [generate_matrix_A, show List.range KYBER512.k = [0, 1] from by decide]
  simp only [List.map_cons, List.map_nil]
  rw [hentry 0 0, hentry 0 1, hentry 1 0, hentry 1 1]

theorem decode_pk_zeros :
    (decode_pk (List.replicate 1568 0) KYBER512).1 = [zeroPolyK, zeroPolyK] := by
  have hentry : ∀ i : Nat, pyPolyInit ((List.range KYBER512.n).map fun m =>
      (leNat (pySlice (List.replicate 1568 0) (3 * (i * KYBER512.n + m))
        (3 * (i * KYBER512.n + m) + 3)) : Int)) 256 3329 = zeroPolyK := by
    intro i
    have hmap : (List.range KYBER512.n).map (fun m =>
        (leNat (pySlice (List.replicate 1568 0) (3 * (i * KYBER512.n + m))
          (3 * (i * KYBER512.n + m) + 3)) : Int)) = List.replicate 256 0 :=
      map_range_zero_int _ (fun m hm => by
        rw [pySlice_replicate, leNat_replicate_zero]
        decide)
    rw [hmap]
    rfl
  show (List.range KYBER512.k).map (fun i => pyPolyInit ((List.range KYBER512.n).map fun m =>
      (leNat (pySlice (List.replicate 1568 0) (3 * (i * KYBER512.n + m))
        (3 * (i * KYBER512.n + m) + 3)) : Int)) 256 3329) = [zeroPolyK, zeroPolyK]
  rw [show List.range KYBER512.k = [0, 1] from by decide]
  simp only [List.map_cons, List.map_nil]
  rw [hentry 0, hentry 1]

/-- The seed-driven sampler through the all-zero sponge gives the all-3
polynomial (η₁ = 3, every stream byte is `0 < 128`), whatever the seed. -/
theorem sample_seed_zeroShake (seed : List Nat) :
    sample_poly_from_seed zeroShake seed KYBER512.eta1 KYBER512.n = constPoly 3 := rfl

theorem sample_e1_zero :
    ((List.range KYBER512.k).map fun i => sample_noise_poly KYBER512.eta1 KYBER512.n
      (fun _ => 0) (i * (KYBER512.eta1 * KYBER512.n))) = [constPoly 3, constPoly 3] := rfl

theorem sample_e2_zero :
    sample_noise_poly KYBER512.eta2 KYBER512.n (fun _ => 0)
      (KYBER512.k * (KYBER512.eta1 * KYBER512.n)) = constPoly 2 := rfl

theorem sample_e1_ff :
    ((List.range KYBER512.k).map fun i => sample_noise_poly KYBER512.eta1 KYBER512.n
      (fun _ => 255) (i * (KYBER512.eta1 * KYBER512.n)))
      = [constPoly (-3), constPoly (-3)] := rfl

theorem sample_e2_ff :
    sample_noise_poly KYBER512.eta2 KYBER512.n (fun _ => 255)
      (KYBER512.k * (KYBER512.eta1 * KYBER512.n)) = constPoly (-2) := rfl

theorem decode_message_zeros :
    decode_message (List.replicate 32 0) KYBER512.n = zeroPolyK := rfl

/-- `encrypt` under the all-zero sponge and the all-`0x00` urandom stream:
the ciphertext compresses `u = (3, …, 3)` components and `v = (2, …, 2)`,
whatever the coins `r`. -/
theorem encrypt_zeros_rand0 (r : List Nat) :
    encrypt zeroShake (fun _ => 0) (List.replicate 1568 0) (List.replicate 32 0) r KYBER512
      = .ok (compress_ciphertext [constPoly 3, constPoly 3] (constPoly 2) KYBER512) := by
  have hmulZ3 : polyMul zeroPolyK (constPoly 3) = .ok zeroPolyK :=
    polyMul_zero_left rfl rfl (by decide)
  have haddZ3 : polyAdd zeroPolyK (constPoly 3) = .ok (constPoly 3) := by decide
  have hadd2Z : polyAdd (constPoly 2) zeroPolyK = .ok (constPoly 2) := by decide
  have haddZ2 : polyAdd zeroPolyK (constPoly 2) = .ok (constPoly 2) := by decide
  simp only [encrypt]
  rw [decode_pk_zeros, genA_zeroShake, sample_e1_zero, sample_seed_zeroShake,
    sample_e2_zero, decode_message_zeros]
  exact encryptCore_zeroA (constPoly 3) (constPoly 3) (constPoly 2) (constPoly 3)
    (constPoly 2) (constPoly 2) hmulZ3 haddZ3 hadd2Z haddZ2

/-- `encrypt` under the all-zero sponge and the all-`0xFF` urandom stream:
the noise flips sign, so `u` compresses `(3326, …)` components and `v`
`(3327, …)` — a different ciphertext. -/
theorem encrypt_zeros_randff (r : List Nat) :
    encrypt zeroShake (fun _ => 255) (List.replicate 1568 0) (List.replicate 32 0) r KYBER512
      = .ok (compress_ciphertext [constPoly 3326, constPoly 3326] (constPoly 3327) KYBER512) := by
  have hmulZ3 : polyMul zeroPolyK (constPoly 3) = .ok zeroPolyK :=
    polyMul_zero_left rfl rfl (by decide)
  have haddZN3 : polyAdd zeroPolyK (constPoly (-3)) = .ok (constPoly 3326) := by decide
  have haddN2Z : polyAdd (constPoly (-2)) zeroPolyK = .ok (constPoly 3327) := by decide
  have haddZ7 : polyAdd zeroPolyK (constPoly 3327) = .ok (constPoly 3327) := by decide
  simp only [encrypt]
  rw [decode_pk_zeros, genA_zeroShake, sample_e1_ff, sample_seed_zeroShake,
    sample_e2_ff, decode_message_zeros]
  exact encryptCore_zeroA (constPoly 3) (constPoly (-3)) (constPoly (-2)) (constPoly 3326)
    (constPoly 3327) (constPoly 3327) hmulZ3 haddZN3 haddN2Z haddZ7

/-- C9: the claim says that with `pk` and the drawn 32-byte `m` fixed,
`encapsulate` is a pure function consuming no randomness other than `m`.  It
is not: `encrypt` draws its noise `e1`, `e2` from `os.urandom` (ignoring the
coins `r` derived from `m`), so two encapsulations with identical `pk`, `m`
and sponge — differing only in the hidden urandom stream (all `0x00` vs all
`0xFF`) — produce different ciphertexts.  This also breaks the
Fujisaki-Okamoto re-encryption comparison in `decapsulate`, which requires
`encrypt` to be deterministic given the coins. -/
theorem C9_encapsulate_nondeterministic :
    encapsulate zeroShake (fun _ => 0) (List.replicate 32 0) (List.replicate 1568 0) KYBER512
      ≠ encapsulate zeroShake (fun _ => 255) (List.replicate 32 0) (List.replicate 1568 0)
        KYBER512 := by
  have hA : encapsulate zeroShake (fun _ => 0) (List.replicate 32 0)
      (List.replicate 1568 0) KYBER512
        = .ok (compress_ciphertext [constPoly 3, constPoly 3] (constPoly 2) KYBER512,
          List.replicate 32 0) := by
    simp only [encapsulate]
    exact bind_ok_eq _ _ _ _ (encrypt_zeros_rand0 _) rfl
  have hB : encapsulate zeroShake (fun _ => 255) (List.replicate 32 0)
      (List.replicate 1568 0) KYBER512
        = .ok (compress_ciphertext [constPoly 3326, constPoly 3326] (constPoly 3327) KYBER512,
          List.replicate 32 0) := by
    simp only [encapsulate]
    exact bind_ok_eq _ _ _ _ (encrypt_zeros_randff _) rfl
  rw [hA, hB]
  decide

end Nondeterminism

end Kyber
